import Mathlib

/-!
Verification development for the asset-job compiler of this repository
(python_modules/dagster/dagster/core/asset_defs/assets_job.py) and the
remote pipeline lookup (python_modules/dagster/dagster/utils/external.py).

Python dictionaries are modelled as association lists with insertion-order
semantics: inserting an existing key replaces its value in place, inserting a
fresh key appends at the end.  Python sets are modelled as lists used only
through membership (where an iteration order of a set is observable but does
not affect the stated properties, the model fixes the insertion order as a
representative).  Machine integers do not occur; Python ints are Nat.
-/

/-- Lookup in an association list (first entry wins; the dictionary
operations below keep keys unique, so this is Python dict lookup). -/
def dlookup {K V : Type} [DecidableEq K] (k : K) : List (K × V) → Option V
  | [] => none
  | (k', v) :: rest => if k' = k then some v else dlookup k rest

/-- Python dict assignment: replace in place if the key is present,
append otherwise. -/
def dinsert {K V : Type} [DecidableEq K] (k : K) (v : V) : List (K × V) → List (K × V)
  | [] => [(k, v)]
  | (k', v') :: rest => if k' = k then (k, v) :: rest else (k', v') :: dinsert k v rest

/-- Iterated dict assignment of a list of entries into an initial dict. -/
def dinsertAll {K V : Type} [DecidableEq K] (init : List (K × V)) (entries : List (K × V)) :
    List (K × V) :=
  entries.foldl (fun t p => dinsert p.1 p.2 t) init

/-- Position of the first occurrence of an element in a list. -/
def idxOf {α : Type} [DecidableEq α] : List α → α → Nat
  | [], _ => 0
  | a :: rest, x => if a = x then 0 else idxOf rest x + 1

/-- Lexicographic strict comparison of lists given a strict comparison of
elements; matches Python list/tuple comparison. -/
def listLtB {α : Type} (lt : α → α → Bool) : List α → List α → Bool
  | [], [] => false
  | [], _ :: _ => true
  | _ :: _, [] => false
  | a :: as, b :: bs => if lt a b then true else if lt b a then false else listLtB lt as bs

/-- Strict comparison of characters by code point (Python semantics). -/
def charLtB (a b : Char) : Bool := a.toNat < b.toNat

/-- Strict comparison of strings, lexicographic by code points (Python
semantics). -/
def strLtB (a b : String) : Bool := listLtB charLtB a.data b.data

/-- Decimal digit character. -/
def digitChar : Nat → Char
  | 0 => '0' | 1 => '1' | 2 => '2' | 3 => '3' | 4 => '4'
  | 5 => '5' | 6 => '6' | 7 => '7' | 8 => '8' | _ => '9'

/-- Decimal digit list of a natural number, most significant first; the
fuel argument makes the recursion structural and any fuel of at least n+1
is enough. -/
def natCharsAux : Nat → Nat → List Char
  | 0, _ => []
  | fuel + 1, n => if n < 10 then [digitChar n] else natCharsAux fuel (n / 10) ++ [digitChar (n % 10)]

/-- Decimal rendering of a natural number; models Python str(int). -/
def natStr (n : Nat) : String := ⟨natCharsAux (n + 1) n⟩

/-- Value of a digit character. -/
def digitVal (c : Char) : Nat := c.toNat - 48

/-- Decimal parsing of a digit list, used only to prove natStr injective. -/
def parseDigits (l : List Char) : Nat := l.foldl (fun a c => 10 * a + digitVal c) 0

/-- An asset key: a hierarchical path of string segments (the Artifact Key
of the specification). -/
abbrev AssetKey := List String

/-- Final path segment of an asset key (path[-1] in the source; keys are
nonempty in well-formed definitions). -/
def lastSeg (k : AssetKey) : String := k.getLastD ""

/-- The model of dagster AssetsDefinition as consumed by assets_job.py: a
base node name, the output-name to key dict, the input-name to upstream-key
dict, the per-key group dict, the per-key upstream-key dict (asset_deps),
the supplied resource bindings (resource objects are modelled by Nat
identities, since the source compares them by reference), declared resource
requirement keys, an optional partitions definition (partition policies are
compared by value and modelled by Nat), and the can_subset capability flag. -/
structure AssetsDefinition where
  node_name : String
  keys_by_output_name : List (String × AssetKey)
  keys_by_input_name : List (String × AssetKey)
  group_names_by_key : List (AssetKey × String)
  asset_deps : List (AssetKey × List AssetKey)
  resource_defs : List (String × Nat)
  resource_requirements : List String
  partitions_def : Option Nat
  can_subset : Bool
deriving Repr, DecidableEq

/-- The output keys of an assets definition (keys property of the source). -/
def AssetsDefinition.keys (ad : AssetsDefinition) : List AssetKey :=
  ad.keys_by_output_name.map Prod.snd

/-- The model of dagster SourceAsset as consumed by assets_job.py. -/
structure SourceAsset where
  key : AssetKey
  group_name : String
  resource_defs : List (String × Nat)
  resource_requirements : List String
deriving Repr, DecidableEq

/-- A dependency of one node input on another node's output
(DependencyDefinition in the source). -/
structure DependencyDefinition where
  node : String
  output : String
deriving Repr, DecidableEq

/-- A key of the dependency dict built by build_node_deps: either a plain
node name, or a NodeInvocation carrying the definition name and an alias.
The two are distinct dictionary keys, exactly as in the source. -/
inductive NodeKey where
  | str (s : String)
  | invocation (defName : String) (aliasName : String)
deriving Repr, DecidableEq

/-- The errors raised by the compiler: DagsterInvalidDefinitionError carrying
the identifying data the message interpolates, and check-failure errors. -/
inductive DefError where
  | unresolvedInput (inputKey : AssetKey) (firstOutputKey : AssetKey)
  | partitionMismatch (firstAssetKey : AssetKey) (secondAssetKey : AssetKey)
  | resourceConflictAssets (key : String)
  | resourceConflictJob (key : String)
  | missingResource (key : String)
deriving Repr, DecidableEq

/-- Group name recorded for a produced key of an assets definition
(group_names_by_key dict access in the source). -/
def groupOf (ad : AssetsDefinition) (k : AssetKey) : String :=
  (dlookup k ad.group_names_by_key).getD ""

/-- The (group, final path segment) to key entries inserted into the lookup
table of resolve_assets_def_deps: one entry per produced key of every
assets definition, then one per source asset, in iteration order. -/
def tableEntries (assets : List AssetsDefinition) (sources : List SourceAsset) :
    List ((String × String) × AssetKey) :=
  ((assets.map (fun ad => ad.keys.map (fun k => ((groupOf ad k, lastSeg k), k)))).flatten) ++
    sources.map (fun sa => ((sa.group_name, lastSeg sa.key), sa.key))

/-- The (group, final path segment) to key lookup table of
resolve_assets_def_deps, later entries overwriting earlier ones. -/
def buildGroupNameTable (assets : List AssetsDefinition) (sources : List SourceAsset) :
    List ((String × String) × AssetKey) :=
  dinsertAll [] (tableEntries assets sources)

/-- The group used for the single-output fallback: the sole entry of
group_names_by_key when that dict has exactly one entry, None otherwise
(the source tests len(assets_def.group_names_by_key) == 1). -/
def fallbackGroup (ad : AssetsDefinition) : Option String :=
  match ad.group_names_by_key with
  | [(_, g)] => some g
  | _ => none

/-- Resolution of a single declared input to an upstream asset key: exact
match against the set of table values, else (group, final segment) lookup
when a fallback group exists, else a DefinitionError naming the input key
and the owning definition's first output key. -/
def resolveInput (table : List ((String × String) × AssetKey)) (group : Option String)
    (firstKey : AssetKey) (ukey : AssetKey) : Except DefError AssetKey :=
  if ukey ∈ table.map Prod.snd then .ok ukey
  else
    match group with
    | some g =>
      match dlookup (g, lastSeg ukey) table with
      | some k => .ok k
      | none => .error (.unresolvedInput ukey firstKey)
    | none => .error (.unresolvedInput ukey firstKey)

/-- Resolution of all inputs of one assets definition, in input dict order. -/
def resolveOne (table : List ((String × String) × AssetKey)) (ad : AssetsDefinition) :
    List (String × AssetKey) → Except DefError (List (String × AssetKey))
  | [] => .ok []
  | (iname, ukey) :: rest =>
    match resolveInput table (fallbackGroup ad) (ad.keys.headD []) ukey with
    | .error e => .error e
    | .ok k =>
      match resolveOne table ad rest with
      | .error e => .error e
      | .ok r => .ok ((iname, k) :: r)

/-- Resolution for a list of assets definitions against a shared table. -/
def resolveAll (table : List ((String × String) × AssetKey)) :
    List AssetsDefinition → Except DefError (List (AssetsDefinition × List (String × AssetKey)))
  | [] => .ok []
  | ad :: rest =>
    match resolveOne table ad ad.keys_by_input_name with
    | .error e => .error e
    | .ok m =>
      match resolveAll table rest with
      | .error e => .error e
      | .ok r => .ok ((ad, m) :: r)

/-- Model of resolve_assets_def_deps: for each assets definition, resolve
its declared inputs to upstream asset keys, by exact match or by the
(group, final path segment) fallback. -/
def resolve_assets_def_deps (assets : List AssetsDefinition) (sources : List SourceAsset) :
    Except DefError (List (AssetsDefinition × List (String × AssetKey))) :=
  resolveAll (buildGroupNameTable assets sources) assets

/-- Model of build_job_partitions_from_assets: no partitioned definition
yields no partitioning; otherwise every partitioned definition must agree
with the first one, else a DefinitionError naming the first output key of
the offending definition and of the first partitioned definition. -/
def build_job_partitions_from_assets (assets : List AssetsDefinition) :
    Except DefError (Option Nat) :=
  match assets.filter (fun ad => ad.partitions_def.isSome) with
  | [] => .ok none
  | first :: rest =>
    match (first :: rest).find? (fun ad => decide (ad.partitions_def ≠ first.partitions_def)) with
    | some bad => .error (.partitionMismatch (bad.keys.headD []) (first.keys.headD []))
    | none => .ok first.partitions_def

/-- Accumulation of resource bindings into a first-seen map, raising a
DefinitionError when a later binding for a key differs from the first-seen
one (loop body of _ensure_resources_dont_conflict). -/
def accumBindings : List (String × Nat) → List (String × Nat) → Except DefError (List (String × Nat))
  | acc, [] => .ok acc
  | acc, (k, v) :: rest =>
    match dlookup k acc with
    | none => accumBindings (dinsert k v acc) rest
    | some v' => if v' = v then accumBindings acc rest else .error (.resourceConflictAssets k)

/-- The concatenated resource bindings of all assets definitions followed by
all source assets, in iteration order. -/
def allEntityBindings (assets : List AssetsDefinition) (sources : List SourceAsset) :
    List (String × Nat) :=
  (assets.map (fun ad => ad.resource_defs)).flatten ++
    (sources.map (fun sa => sa.resource_defs)).flatten

/-- Model of _ensure_resources_dont_conflict: assets and source assets may
not bind one resource key to two non-identical resource objects, and a
job-level binding for a key other than io_manager may not conflict with a
binding contributed by some asset. -/
def _ensure_resources_dont_conflict (assets : List AssetsDefinition)
    (sources : List SourceAsset) (resource_defs : List (String × Nat)) :
    Except DefError Unit :=
  match accumBindings [] (allEntityBindings assets sources) with
  | .error e => .error e
  | .ok fromAssets =>
    match resource_defs.find? (fun p =>
        decide (p.1 ≠ "io_manager") &&
          (match dlookup p.1 fromAssets with
           | some v' => decide (v' ≠ p.2)
           | none => false)) with
    | some p => .error (.resourceConflictJob p.1)
    | none => .ok ()

/-- Python dict merge as used by merge_dicts in the source: entries of the
second dict take precedence over the first. -/
def merge_dicts (a b : List (String × Nat)) : List (String × Nat) := dinsertAll a b

/-- Modelled from the spec: ensure_requirements_satisfied (imported from
dagster.core.definitions.resource_requirement, which is not part of the
provided sources) checks that every declared resource requirement key is
present in the supplied bindings and raises a DefinitionError naming the
missing key otherwise (spec 4.6, third bullet). -/
def ensure_requirements_satisfied (defs : List (String × Nat)) (reqs : List String) :
    Except DefError Unit :=
  match reqs.find? (fun r => (dlookup r defs).isNone) with
  | some r => .error (.missingResource r)
  | none => .ok ()

/-- Requirement checking over assets then source assets, each against the
merge of the job-level bindings with the entity's own bindings. -/
def checkRequirements (resource_defs : List (String × Nat)) :
    List (List (String × Nat) × List String) → Except DefError Unit
  | [] => .ok ()
  | (own, reqs) :: rest =>
    match ensure_requirements_satisfied (merge_dicts resource_defs own) reqs with
    | .error e => .error e
    | .ok _ => checkRequirements resource_defs rest

/-- Model of check_resources_satisfy_requirements. -/
def check_resources_satisfy_requirements (assets : List AssetsDefinition)
    (sources : List SourceAsset) (resource_defs : List (String × Nat)) :
    Except DefError Unit :=
  match _ensure_resources_dont_conflict assets sources resource_defs with
  | .error e => .error e
  | .ok _ =>
    checkRequirements resource_defs
      (assets.map (fun ad => (ad.resource_defs, ad.resource_requirements)) ++
        sources.map (fun sa => (sa.resource_defs, sa.resource_requirements)))

/-- Model of get_all_resource_defs: after the conformance and requirement
checks, merge every entity's own bindings on top of the job-level table. -/
def get_all_resource_defs (assets : List AssetsDefinition) (sources : List SourceAsset)
    (resource_defs : List (String × Nat)) : Except DefError (List (String × Nat)) :=
  match check_resources_satisfy_requirements assets sources resource_defs with
  | .error e => .error e
  | .ok _ => .ok (dinsertAll resource_defs (allEntityBindings assets sources))

/-- The identity of the module-level default_job_io_manager resource object
merged into every job by build_assets_job. -/
def default_job_io_manager : Nat := 0

/-- The job-level resource table assembled by build_assets_job before any
checks: the default io_manager entry, overridden by the caller's table. -/
def jobLevelResourceDefs (resource_defs : List (String × Nat)) : List (String × Nat) :=
  merge_dicts [("io_manager", default_job_io_manager)] resource_defs

/-- The sort key used by build_node_deps: the sorted list of output keys of
an assets definition. -/
def sortKey (ad : AssetsDefinition) : List AssetKey :=
  List.insertionSort (fun a b => listLtB strLtB b a = false) ad.keys

/-- The comparison build_node_deps sorts assets definitions by. -/
def adLe (x y : AssetsDefinition) : Prop :=
  listLtB (listLtB strLtB) (sortKey y) (sortKey x) = false

instance : DecidableRel adLe := fun _ _ => inferInstanceAs (Decidable (_ = false))

/-- The output-key-sorted order of the input assets definitions (the sorted
call at the top of build_node_deps; Python sorted is stable, as is
insertion sort). -/
def sortDefs (assets : List AssetsDefinition) : List AssetsDefinition :=
  List.insertionSort adLe assets

/-- Unit-identifier assignment with collision suffixing: the first
definition with a base name keeps it, later ones receive the alias
name_2, name_3, and so on, tracked by the collisions dict. -/
def assignAliases : List AssetsDefinition → List (String × Nat) → List (String × AssetsDefinition)
  | [], _ => []
  | ad :: rest, collisions =>
    match dlookup ad.node_name collisions with
    | some n =>
      (ad.node_name ++ "_" ++ natStr (n + 1), ad) ::
        assignAliases rest (dinsert ad.node_name (n + 1) collisions)
    | none => (ad.node_name, ad) :: assignAliases rest (dinsert ad.node_name 1 collisions)

/-- The assets_defs_by_node_handle dict: alias to definition, in assignment
order (an alias collision would overwrite, as for any dict). -/
def handleDict (aliased : List (String × AssetsDefinition)) : List (String × AssetsDefinition) :=
  dinsertAll [] aliased

/-- The node_alias_and_output_by_asset_key dict: produced key to
(alias, output name), built over all aliased definitions in order. -/
def outputTable (aliased : List (String × AssetsDefinition)) :
    List (AssetKey × (String × String)) :=
  dinsertAll []
    ((aliased.map (fun p => p.2.keys_by_output_name.map (fun q => (q.2, (p.1, q.1))))).flatten)

/-- The dict key used for one node of the graph: a plain name when the alias
equals the definition name, a NodeInvocation otherwise. -/
def nodeKeyOf (aliasName : String) (ad : AssetsDefinition) : NodeKey :=
  if aliasName ≠ ad.node_name then .invocation ad.node_name aliasName else .str ad.node_name

/-- One step of the per-node dependency loop: a resolved input whose key is
in the output table adds a DependencyDefinition, any other input is
skipped. -/
def ndfStep (outTable : List (AssetKey × (String × String)))
    (nd : List (String × DependencyDefinition)) (p : String × AssetKey) :
    List (String × DependencyDefinition) :=
  match dlookup p.2 outTable with
  | some q => dinsert p.1 ⟨q.1, q.2⟩ nd
  | none => nd

/-- The per-node input dependency dict of one aliased definition: one
DependencyDefinition per resolved input whose key is in the output table. -/
def nodeDepsFor (outTable : List (AssetKey × (String × String)))
    (rmap : List (String × AssetKey)) : List (String × DependencyDefinition) :=
  rmap.foldl (ndfStep outTable) []

/-- The input-handle entries of one aliased definition: every resolved input
is recorded with its resolved key, whether or not an in-graph producer
exists. -/
def handleEntriesFor (aliasName : String) (rmap : List (String × AssetKey)) :
    List ((String × String) × AssetKey) :=
  rmap.map (fun p => ((aliasName, p.1), p.2))

/-- Model of build_node_deps: sort the definitions, assign collision-free
aliases, build the produced-key table, resolve every input, and emit the
dependency dict, the alias-to-definition dict and the input-handle map. -/
def build_node_deps (assets : List AssetsDefinition) (sources : List SourceAsset) :
    Except DefError
      (List (NodeKey × List (String × DependencyDefinition)) ×
        List (String × AssetsDefinition) ×
        List ((String × String) × AssetKey)) :=
  match resolve_assets_def_deps (sortDefs assets) sources with
  | .error e => .error e
  | .ok resolved =>
    match assignAliases (sortDefs assets) [] with
    | aliased =>
      match handleDict aliased with
      | handles =>
        match outputTable aliased with
        | outTable =>
          .ok
            (dinsertAll []
              (handles.map (fun p =>
                (nodeKeyOf p.1 p.2,
                  nodeDepsFor outTable ((dlookup p.2 resolved).getD [])))),
              handles,
              dinsertAll []
                ((handles.map (fun p =>
                  handleEntriesFor p.1 ((dlookup p.2 resolved).getD []))).flatten))

/-- Items of a toposort input: every dict key and every member of a
dependency set. -/
def tpItems {α : Type} [DecidableEq α] (data : List (α × List α)) : List α :=
  (data.map Prod.fst ++ (data.map Prod.snd).flatten).dedup

/-- Normalization performed by the toposort library before iterating:
self-dependencies are discarded, and every item that appears only inside a
dependency set is added as a key with no dependencies. -/
def tpNormalize {α : Type} [DecidableEq α] (data : List (α × List α)) : List (α × List α) :=
  data.map (fun p => (p.1, p.2.filter (fun d => decide (d ≠ p.1)))) ++
    ((((data.map Prod.snd).flatten).dedup).filter
      (fun x => decide (x ∉ data.map Prod.fst))).map (fun x => (x, []))

/-- One round of the toposort loop: the items with no remaining
dependencies, and the rest with those items removed from their sets. -/
def kahnStep {α : Type} [DecidableEq α] (pending : List (α × List α)) :
    List α × List (α × List α) :=
  ((pending.filter (fun p => decide (p.2 = []))).map Prod.fst,
    (pending.filter (fun p => decide (p.2 ≠ []))).map
      (fun p => (p.1, p.2.filter (fun d =>
        decide (d ∉ (pending.filter (fun q => decide (q.2 = []))).map Prod.fst)))))

/-- Fueled toposort loop; returns the layers, or none when no progress can
be made with items remaining (the CircularDependencyError of the library). -/
def kahnRun {α : Type} [DecidableEq α] : Nat → List (α × List α) → Option (List (List α))
  | _, [] => some []
  | 0, _ => none
  | fuel + 1, pending =>
    match kahnStep pending with
    | (ready, rest) =>
      if ready = [] then none
      else
        match kahnRun fuel rest with
        | some layers => some (ready :: layers)
        | none => none

/-- Model of the toposort library function used by the source: layered
topological sort, with self-dependencies ignored. -/
def toposort {α : Type} [DecidableEq α] (data : List (α × List α)) : Option (List (List α)) :=
  kahnRun (tpNormalize data).length (tpNormalize data)

/-- The node-to-upstream-nodes adjacency flattened by _has_cycles from the
dependency dict: every referenced upstream node appears as a plain string
key, exactly as in the source. -/
def nodeDepsOf (deps : List (NodeKey × List (String × DependencyDefinition))) :
    List (NodeKey × List NodeKey) :=
  deps.map (fun p => (p.1, (p.2.map (fun q => NodeKey.str q.2.node)).dedup))

/-- Model of _has_cycles: true when the toposort of the flattened adjacency
raises CircularDependencyError. -/
def _has_cycles (deps : List (NodeKey × List (String × DependencyDefinition))) : Bool :=
  (toposort (nodeDepsOf deps)).isNone

/-- User-string form of an asset key: the path segments joined by slashes
(AssetKey.to_user_string). -/
def toUserString : AssetKey → String
  | [] => ""
  | [s] => s
  | s :: rest => s ++ "/" ++ toUserString rest

/-- Splitting of a character list at slashes, used by fromUserString. -/
def splitSlash : List Char → List (List Char)
  | [] => [[]]
  | c :: rest =>
    match splitSlash rest with
    | r => if c = '/' then [] :: r else (c :: r.headD []) :: r.tail

/-- Inverse of toUserString (AssetKey.from_user_string). -/
def fromUserString (s : String) : AssetKey := (splitSlash s.data).map (fun cs => ⟨cs⟩)

/-- Inversion of an adjacency dict: for every entry (n, us) and every u in
us, n is appended to the downstream list of u. -/
def invertGraph (upstream : List (String × List String)) : List (String × List String) :=
  upstream.foldl
    (fun down p =>
      p.2.foldl (fun down u => dinsert u ((dlookup u down).getD [] ++ [p.1]) down) down)
    []

/-- Modelled from the spec: generate_asset_dep_graph (imported from
dagster.core.selector.subset_selector, which is not part of the provided
sources) returns the artifact-level dependency graph over user-string
names: every produced key maps to the user strings of its upstream keys
(its asset_deps entry), and the downstream dict is the inverse adjacency
(spec 4.5, step 1). -/
def generate_asset_dep_graph (assets : List AssetsDefinition) :
    List (String × List String) × List (String × List String) :=
  match dinsertAll []
      ((assets.map (fun ad =>
        ad.keys.map (fun k =>
          (toUserString k, ((dlookup k ad.asset_deps).getD []).map toUserString)))).flatten) with
  | upstream => (upstream, invertGraph upstream)

/-- The assets_defs_by_asset_name index of _attempt_resolve_cycles. -/
def adByAssetName (assets : List AssetsDefinition) : List (String × AssetsDefinition) :=
  dinsertAll [] ((assets.map (fun ad => ad.keys.map (fun k => (toUserString k, ad)))).flatten)

/-- The _dfs coloring of _attempt_resolve_cycles, made structural with
fuel: color the current artifact, then walk its downstream artifacts,
keeping the color inside the same definition and incrementing it when
crossing to a different definition, re-running the walk whenever the new
color exceeds the recorded one.  In the source the comparison set for a
name not produced in-job is a set of strings, against which an AssetKey
never compares equal, so the model uses the empty key list there. -/
def dfsColor (down : List (String × List String)) (adByName : List (String × AssetsDefinition)) :
    Nat → List (String × Nat) → String → Nat → List (String × Nat)
  | 0, cs, _, _ => cs
  | fuel + 1, cs, name, cur =>
    match (match dlookup name adByName with
           | some ad => ad.keys
           | none => ([] : List AssetKey)) with
    | curKeys =>
      ((dlookup name down).getD []).foldl
        (fun cs2 dn =>
          match (if fromUserString dn ∈ curKeys then cur else cur + 1) with
          | nc =>
            if (dlookup dn cs2).elim true (fun c => c < nc) then
              dfsColor down adByName fuel cs2 dn nc
            else cs2)
        (dinsert name cur cs)

/-- Insertion of one colored key into the per-definition color map
(the nested defaultdict of _attempt_resolve_cycles). -/
def addColor (acc : List (AssetsDefinition × List (Nat × List AssetKey)))
    (ad : AssetsDefinition) (color : Nat) (k : AssetKey) :
    List (AssetsDefinition × List (Nat × List AssetKey)) :=
  match (dlookup ad acc).getD [] with
  | cm =>
    match (dlookup color cm).getD [] with
    | ks => dinsert ad (dinsert color (if k ∈ ks then ks else ks ++ [k]) cm) acc

/-- Modelled from the spec: AssetsDefinition.subset_for (defined in
assets.py, which is not part of the provided sources) restricts a
subsettable definition to a subset of its output keys: outputs, groups and
per-output upstream keys are filtered to the subset, and the declared
inputs are filtered to the upstream keys still needed (spec 4.5, step 5 and
6, the restrict operation). -/
def AssetsDefinition.subset_for (ad : AssetsDefinition) (sel : List AssetKey) :
    AssetsDefinition :=
  match ((ad.asset_deps.filter (fun p => decide (p.1 ∈ sel))).map Prod.snd).flatten with
  | selDeps =>
    { ad with
      keys_by_output_name := ad.keys_by_output_name.filter (fun p => decide (p.2 ∈ sel)),
      keys_by_input_name := ad.keys_by_input_name.filter (fun p => decide (p.2 ∈ selDeps)),
      group_names_by_key := ad.group_names_by_key.filter (fun p => decide (p.1 ∈ sel)),
      asset_deps := ad.asset_deps.filter (fun p => decide (p.1 ∈ sel)) }

/-- Model of _attempt_resolve_cycles: color the artifact-level graph by DFS
from the first topological layer, group the colors per definition, keep
definitions with a single color or without the subset capability, and split
the others into one subset per color.  Returns none when the artifact-level
graph itself is cyclic (the toposort call raises). -/
def _attempt_resolve_cycles (assets : List AssetsDefinition) :
    Option (List AssetsDefinition) :=
  match generate_asset_dep_graph assets with
  | (up, down) =>
    match adByAssetName assets with
    | adByName =>
      match toposort up with
      | none => none
      | some layers =>
        match (layers.headD []).foldl
            (fun cs r => dfsColor down adByName ((tpItems up).length + 1) cs r 0) [] with
        | colors =>
          match colors.foldl
              (fun acc p =>
                match dlookup p.1 adByName with
                | none => acc
                | some ad => addColor acc ad p.2 (fromUserString p.1)) [] with
          | grouped =>
            some (grouped.foldl
              (fun ret p =>
                if p.2.length = 1 ∨ p.1.can_subset = false then ret ++ [p.1]
                else ret ++ p.2.map (fun q => p.1.subset_for q.2))
              [])

/-- The model of a pipeline run record, as read by external.py: only the
pipeline name and the solid selection are consumed. -/
structure PipelineRun where
  pipeline_name : String
  solid_selection : Option (List String)

/-- The selector built by external_pipeline_from_run_with_repository_location_handle. -/
structure PipelineSelector where
  location_name : String
  repository_name : String
  pipeline_name : String
  solid_selection : Option (List String)
deriving Repr, DecidableEq

/-- A repository of a repository location, with its name and its opaque
handle. -/
structure ExternalRepository (H : Type) where
  name : String
  handle : H

/-- Modelled from the spec: the repository location resolved from a handle
(RepositoryLocation.from_handle and its get_repositories and subset-lookup
methods are external collaborators, spec section 6, remote/location
lookup): a name, the repositories dict, and the opaque lookup from a
selector to external pipeline data. -/
structure RepositoryLocation (D H : Type) where
  name : String
  repositories : List (String × ExternalRepository H)
  get_subset_external_pipeline_result : PipelineSelector → D

/-- The external pipeline handle returned to the caller: the data returned
by the location lookup paired with the repository handle. -/
structure ExternalPipeline (D H : Type) where
  external_pipeline_data : D
  repository_handle : H

/-- Errors of the check module used by external.py. -/
inductive CheckError where
  | invariantViolation (msg : String)
deriving Repr, DecidableEq

/-- Model of external_pipeline_from_run_with_repository_location_handle:
fail the invariant check unless the location holds exactly one repository,
then fetch the external pipeline through a selector carrying the location
name, the repository name, the run's pipeline name and the run's solid
selection. -/
def external_pipeline_from_run_with_repository_location_handle {D H : Type}
    (run : PipelineRun) (loc : RepositoryLocation D H) :
    Except CheckError (ExternalPipeline D H) :=
  if loc.repositories.length = 1 then
    match loc.repositories with
    | (_, repo) :: _ =>
      .ok
        ⟨loc.get_subset_external_pipeline_result
          ⟨loc.name, repo.name, run.pipeline_name, run.solid_selection⟩,
          repo.handle⟩
    | [] =>
      .error (.invariantViolation
        "Reconstructed repository location should have exactly one repository")
  else
    .error (.invariantViolation
      "Reconstructed repository location should have exactly one repository")

/-- Statement-level predicate: ord is a valid topological ordering of the
graph when self-edges are disregarded — every item occurs in ord, ord has
no duplicates, and every non-self dependency of an item occurs strictly
before the item. -/
def IsTopoOrder {α : Type} [DecidableEq α] (data : List (α × List α)) (ord : List α) : Prop :=
  ord.Nodup ∧ (∀ x ∈ tpItems data, x ∈ ord) ∧
    ∀ p ∈ data, ∀ d ∈ p.2, d = p.1 ∨ idxOf ord d < idxOf ord p.1

/-- Statement-level predicate: ord is a valid topological ordering of the
graph with every edge counted, self-edges included (the notion the claim
about the Cycle Detector is stated with). -/
def IsStrictTopoOrder {α : Type} [DecidableEq α] (data : List (α × List α)) (ord : List α) :
    Prop :=
  ord.Nodup ∧ (∀ x ∈ tpItems data, x ∈ ord) ∧
    ∀ p ∈ data, ∀ d ∈ p.2, idxOf ord d < idxOf ord p.1

/-- Statement-level edge relation of a dependency graph: x feeds y when
some entry for y lists x among its dependencies, and x and y are distinct
nodes. -/
def EdgeOf {α : Type} (data : List (α × List α)) (x y : α) : Prop :=
  ∃ p ∈ data, p.1 = y ∧ x ∈ p.2 ∧ x ≠ y

/-- Statement-level predicate: the graph contains a directed cycle through
at least two distinct nodes — a nonempty edge path from some node back to
itself. -/
def HasDirectedCycle {α : Type} (data : List (α × List α)) : Prop :=
  ∃ v, Relation.TransGen (EdgeOf data) v v

/-- The unit identifier of a dependency-dict key: a plain key names the
unit itself, an invocation names it by its alias. -/
def aliasOf : NodeKey → String
  | .str s => s
  | .invocation _ a => a

/-- The unit-level adjacency of a dependency dict: every consuming unit
mapped to the unit identifiers that produce its inputs. -/
def unitAdjOf (deps : List (NodeKey × List (String × DependencyDefinition))) :
    List (String × List String) :=
  deps.map (fun p => (aliasOf p.1, p.2.map (fun q => q.2.node)))

/-- Statement-level alias scheme of the claim: the first occurrence of a
base name keeps it, the occurrence after c earlier ones receives the
suffix for c+1. -/
def aliasFor (b : String) (c : Nat) : String :=
  if c = 0 then b else b ++ "_" ++ natStr (c + 1)

/-- Statement-level unit-identifier assignment following the words of the
spec: walk the definitions in order, give each one the alias for the number
of earlier occurrences of its base name, counting from c. -/
def specUnitIdentifiers (c : String → Nat) : List AssetsDefinition → List String
  | [] => []
  | ad :: rest =>
    aliasFor ad.node_name (c ad.node_name) ::
      specUnitIdentifiers (fun b => if b = ad.node_name then c b + 1 else c b) rest

/-- All keys produced by the assets definitions or supplied as source
assets, in table iteration order. -/
def allProducedKeys (assets : List AssetsDefinition) (sources : List SourceAsset) :
    List AssetKey :=
  (tableEntries assets sources).map Prod.snd

/-- No two produced or source keys share a (group, final path segment)
pair: under this hypothesis nothing is shadowed in the resolver's lookup
table. -/
def NoShadowing (assets : List AssetsDefinition) (sources : List SourceAsset) : Prop :=
  ∀ p ∈ tableEntries assets sources, ∀ q ∈ tableEntries assets sources,
    p.1 = q.1 → p.2 = q.2

/-- A binding list is conflict-free when any two bindings of the same key
carry the identical resource object. -/
def ConsistentBindings (es : List (String × Nat)) : Prop :=
  ∀ p ∈ es, ∀ q ∈ es, p.1 = q.1 → p.2 = q.2

/-- No base name of the list extends another base name of the list by an
underscore: under this hypothesis the suffixing scheme cannot produce a
clash between a generated alias and an other base name. -/
def UnderscoreFree (names : List String) : Prop :=
  ∀ b ∈ names, ∀ b' ∈ names, ¬ (b.data ++ ['_']) <+: b'.data

/-- Concrete subsettable definition A of the cross-cycle scenario:
outputs a1 and a2, where a2 consumes B's output b2. -/
def exA : AssetsDefinition :=
  { node_name := "A",
    keys_by_output_name := [("a1", ["a1"]), ("a2", ["a2"])],
    keys_by_input_name := [("b2", ["b2"])],
    group_names_by_key := [(["a1"], "g"), (["a2"], "g")],
    asset_deps := [(["a1"], []), (["a2"], [["b2"]])],
    resource_defs := [], resource_requirements := [],
    partitions_def := none, can_subset := true }

/-- Concrete subsettable definition B of the cross-cycle scenario:
outputs b1 and b2, where b1 consumes A's output a1. -/
def exB : AssetsDefinition :=
  { node_name := "B",
    keys_by_output_name := [("b1", ["b1"]), ("b2", ["b2"])],
    keys_by_input_name := [("a1", ["a1"])],
    group_names_by_key := [(["b1"], "g"), (["b2"], "g")],
    asset_deps := [(["b1"], [["a1"]]), (["b2"], [])],
    resource_defs := [], resource_requirements := [],
    partitions_def := none, can_subset := true }

/-- Concrete single-output definition producing the two-segment key p/x in
group g. -/
def exP : AssetsDefinition :=
  { node_name := "P",
    keys_by_output_name := [("x", ["p", "x"])],
    keys_by_input_name := [],
    group_names_by_key := [(["p", "x"], "g")],
    asset_deps := [(["p", "x"], [])],
    resource_defs := [], resource_requirements := [],
    partitions_def := none, can_subset := false }

/-- Concrete two-output definition whose outputs both carry group g and
whose single input declares the key x, matching p/x by (group, final
segment). -/
def exC : AssetsDefinition :=
  { node_name := "C",
    keys_by_output_name := [("b1", ["b1"]), ("b2", ["b2"])],
    keys_by_input_name := [("x", ["x"])],
    group_names_by_key := [(["b1"], "g"), (["b2"], "g")],
    asset_deps := [(["b1"], [["x"]]), (["b2"], [])],
    resource_defs := [], resource_requirements := [],
    partitions_def := none, can_subset := false }

/-- Minimal single-output definition used by concrete instances. -/
def mkAD (nm : String) (out : String) (k : AssetKey) : AssetsDefinition :=
  { node_name := nm, keys_by_output_name := [(out, k)], keys_by_input_name := [],
    group_names_by_key := [(k, "g")], asset_deps := [(k, [])],
    resource_defs := [], resource_requirements := [],
    partitions_def := none, can_subset := false }

/-- Concrete definition whose base name x_2 collides with a generated
alias. -/
def exR : AssetsDefinition := mkAD "x_2" "o" ["a"]

/-- First concrete definition with base name x. -/
def exS : AssetsDefinition := mkAD "x" "o" ["b"]

/-- Second concrete definition with base name x. -/
def exT : AssetsDefinition := mkAD "x" "o" ["c"]

/-- Concrete dependency dict with a single self-edge: the unit a consumes
its own output. -/
def selfLoopDeps : List (NodeKey × List (String × DependencyDefinition)) :=
  [(NodeKey.str "a", [("in", ⟨"a", "out"⟩)])]

/-- Concrete definition supplying its own io_manager and a db resource. -/
def adW : AssetsDefinition :=
  { mkAD "w" "o" ["w"] with resource_defs := [("io_manager", 7), ("db", 3)] }

/-- Concrete definition supplying a conflicting db resource object. -/
def adV : AssetsDefinition :=
  { mkAD "v" "p" ["v"] with resource_defs := [("db", 5)] }

/-- Concrete single-output definition in group g whose input x matches p/x
only by (group, final segment). -/
def exD : AssetsDefinition :=
  { mkAD "D" "o" ["d"] with keys_by_input_name := [("x", ["x"])] }

/-- Concrete producer of a/x in group g, shadowed in the lookup table by
exPb's b/x (same group, same final segment). -/
def exPa : AssetsDefinition := mkAD "Pa" "o" ["a", "x"]

/-- Concrete producer of b/x in group g, overwriting exPa's table entry. -/
def exPb : AssetsDefinition := mkAD "Pb" "o" ["b", "x"]

/-- Concrete single-output consumer declaring the produced key a/x as its
input. -/
def exE : AssetsDefinition :=
  { mkAD "E" "o" ["e"] with keys_by_input_name := [("in", ["a", "x"])] }


theorem dlookup_dinsert_self {K V : Type} [DecidableEq K] (k : K) (v : V)
    (m : List (K × V)) : dlookup k (dinsert k v m) = some v := by
  induction m with
  | nil => simp [dinsert, dlookup]
  | cons p rest ih =>
    by_cases h : p.1 = k
    · simp [dinsert, dlookup, h]
    · simp [dinsert, dlookup, h, ih]

theorem dlookup_dinsert_ne {K V : Type} [DecidableEq K] {k k' : K} (v : V)
    (m : List (K × V)) (h : k' ≠ k) : dlookup k (dinsert k' v m) = dlookup k m := by
  induction m with
  | nil => simp [dinsert, dlookup, h]
  | cons p rest ih =>
    by_cases hp : p.1 = k'
    · have hpk : p.1 ≠ k := by rw [hp]; exact h
      simp [dinsert, dlookup, hp, h, hpk]
    · by_cases hk : p.1 = k
      · simp [dinsert, dlookup, hp, hk, Ne.symm h]
      · simp [dinsert, dlookup, hp, hk, ih]

theorem mem_fst_dinsert {K V : Type} [DecidableEq K] {a k : K} {v : V}
    {m : List (K × V)} : a ∈ (dinsert k v m).map Prod.fst ↔ a = k ∨ a ∈ m.map Prod.fst := by
  induction m with
  | nil => simp [dinsert]
  | cons p rest ih =>
    by_cases hp : p.1 = k
    · rw [show dinsert k v (p :: rest) = (k, v) :: rest by simp [dinsert, hp]]
      simp [hp]
    · rw [show dinsert k v (p :: rest) = p :: dinsert k v rest by simp [dinsert, hp]]
      simp [ih]
      tauto

theorem nodup_fst_dinsert {K V : Type} [DecidableEq K] (k : K) (v : V)
    (m : List (K × V)) (h : (m.map Prod.fst).Nodup) :
    ((dinsert k v m).map Prod.fst).Nodup := by
  induction m with
  | nil => simp [dinsert]
  | cons p rest ih =>
    by_cases hp : p.1 = k
    · rw [show dinsert k v (p :: rest) = (k, v) :: rest by simp [dinsert, hp]]
      rw [show ((k, v) :: rest).map Prod.fst = k :: rest.map Prod.fst by simp]
      rw [show (p :: rest).map Prod.fst = p.1 :: rest.map Prod.fst by simp] at h
      rw [← hp]
      exact h
    · rw [show dinsert k v (p :: rest) = p :: dinsert k v rest by simp [dinsert, hp]]
      simp only [List.map_cons, List.nodup_cons] at h ⊢
      refine ⟨fun hc => ?_, ih h.2⟩
      rcases mem_fst_dinsert.1 hc with rfl | hc
      · exact hp rfl
      · exact h.1 hc

theorem dinsert_fresh {K V : Type} [DecidableEq K] (k : K) (v : V)
    (m : List (K × V)) (h : k ∉ m.map Prod.fst) : dinsert k v m = m ++ [(k, v)] := by
  induction m with
  | nil => simp [dinsert]
  | cons p rest ih =>
    simp only [List.map_cons, List.mem_cons] at h
    push_neg at h
    have hp : p.1 ≠ k := fun he => h.1 he.symm
    rw [show dinsert k v (p :: rest) = p :: dinsert k v rest by simp [dinsert, hp]]
    rw [ih h.2]
    simp

theorem mem_dinsert {K V : Type} [DecidableEq K] {x : K × V} {k : K} {v : V}
    {m : List (K × V)} (h : x ∈ dinsert k v m) : x = (k, v) ∨ x ∈ m := by
  induction m with
  | nil => simpa [dinsert] using h
  | cons p rest ih =>
    by_cases hp : p.1 = k
    · rw [show dinsert k v (p :: rest) = (k, v) :: rest by simp [dinsert, hp]] at h
      rcases List.mem_cons.1 h with h | h
      · exact Or.inl h
      · exact Or.inr (List.mem_cons_of_mem _ h)
    · rw [show dinsert k v (p :: rest) = p :: dinsert k v rest by simp [dinsert, hp]] at h
      rcases List.mem_cons.1 h with h | h
      · refine Or.inr ?_
        rw [h]
        exact List.mem_cons_self p rest
      · rcases ih h with h | h
        · exact Or.inl h
        · exact Or.inr (List.mem_cons_of_mem _ h)

theorem dlookup_eq_none_iff {K V : Type} [DecidableEq K] {k : K} {m : List (K × V)} :
    dlookup k m = none ↔ k ∉ m.map Prod.fst := by
  induction m with
  | nil => simp [dlookup]
  | cons p rest ih =>
    by_cases hp : p.1 = k
    · simp [dlookup, hp]
    · simp [dlookup, hp, ih, Ne.symm hp]

theorem dlookup_mem {K V : Type} [DecidableEq K] {k : K} {v : V} {m : List (K × V)}
    (h : dlookup k m = some v) : (k, v) ∈ m := by
  induction m with
  | nil => simp [dlookup] at h
  | cons p rest ih =>
    by_cases hp : p.1 = k
    · rw [show dlookup k (p :: rest) = some p.2 by simp [dlookup, hp]] at h
      injection h with hv
      have heq : (k, v) = p := Prod.ext hp.symm hv.symm
      rw [heq]
      exact List.mem_cons_self p rest
    · rw [show dlookup k (p :: rest) = dlookup k rest by simp [dlookup, hp]] at h
      exact List.mem_cons_of_mem _ (ih h)

theorem dlookup_isSome_of_mem {K V : Type} [DecidableEq K] {k : K} {v : V}
    {m : List (K × V)} (h : (k, v) ∈ m) : ∃ v', dlookup k m = some v' := by
  induction m with
  | nil => simp at h
  | cons p rest ih =>
    by_cases hp : p.1 = k
    · exact ⟨p.2, by simp [dlookup, hp]⟩
    · rcases List.mem_cons.1 h with h | h
      · exact absurd (congrArg Prod.fst h).symm hp
      · rcases ih h with ⟨v', hv⟩
        exact ⟨v', by simp [dlookup, hp, hv]⟩

theorem dlookup_of_mem_nodup {K V : Type} [DecidableEq K] {k : K} {v : V}
    {m : List (K × V)} (hn : (m.map Prod.fst).Nodup) (h : (k, v) ∈ m) :
    dlookup k m = some v := by
  induction m with
  | nil => simp at h
  | cons p rest ih =>
    simp only [List.map_cons, List.nodup_cons] at hn
    rcases List.mem_cons.1 h with h | h
    · rw [← h]
      simp [dlookup]
    · have hne : p.1 ≠ k := by
        intro he
        apply hn.1
        rw [he]
        exact List.mem_map_of_mem Prod.fst h
      simp [dlookup, hne, ih hn.2 h]

theorem dlookup_append {K V : Type} [DecidableEq K] (k : K) (a b : List (K × V)) :
    dlookup k (a ++ b) = (dlookup k a).elim (dlookup k b) some := by
  induction a with
  | nil => simp [dlookup]
  | cons p rest ih =>
    by_cases hp : p.1 = k
    · simp [dlookup, hp]
    · simp [dlookup, hp, ih]

theorem dinsertAll_append {K V : Type} [DecidableEq K] (init a b : List (K × V)) :
    dinsertAll init (a ++ b) = dinsertAll (dinsertAll init a) b := by
  simp [dinsertAll, List.foldl_append]

theorem dlookup_dinsertAll {K V : Type} [DecidableEq K] (k : K) :
    ∀ (es init : List (K × V)),
      dlookup k (dinsertAll init es) = (dlookup k es.reverse).elim (dlookup k init) some := by
  intro es
  induction es with
  | nil => simp [dinsertAll, dlookup]
  | cons p rest ih =>
    intro init
    have hstep : dinsertAll init (p :: rest) = dinsertAll (dinsert p.1 p.2 init) rest := rfl
    rw [hstep, ih]
    have harhs : dlookup k ((p :: rest).reverse) =
        (dlookup k rest.reverse).elim (dlookup k [p]) some := by
      rw [List.reverse_cons, dlookup_append]
    rw [harhs]
    cases hr : dlookup k rest.reverse with
    | some v => simp
    | none =>
      by_cases hp : p.1 = k
      · subst hp
        simp [dlookup, dlookup_dinsert_self]
      · simp [dlookup, hp, dlookup_dinsert_ne _ _ hp]

theorem mem_fst_dinsertAll {K V : Type} [DecidableEq K] {a : K} :
    ∀ (es init : List (K × V)),
      (a ∈ (dinsertAll init es).map Prod.fst ↔ a ∈ init.map Prod.fst ∨ a ∈ es.map Prod.fst) := by
  intro es
  induction es with
  | nil => simp [dinsertAll]
  | cons p rest ih =>
    intro init
    have hstep : dinsertAll init (p :: rest) = dinsertAll (dinsert p.1 p.2 init) rest := rfl
    rw [hstep, ih]
    rw [mem_fst_dinsert]
    simp only [List.map_cons, List.mem_cons]
    tauto

theorem nodup_fst_dinsertAll {K V : Type} [DecidableEq K] :
    ∀ (es init : List (K × V)), (init.map Prod.fst).Nodup →
      ((dinsertAll init es).map Prod.fst).Nodup := by
  intro es
  induction es with
  | nil => intro init h; simpa [dinsertAll] using h
  | cons p rest ih =>
    intro init h
    exact ih (dinsert p.1 p.2 init) (nodup_fst_dinsert _ _ _ h)

theorem mem_dinsertAll {K V : Type} [DecidableEq K] {x : K × V} :
    ∀ {es init : List (K × V)}, x ∈ dinsertAll init es → x ∈ init ∨ x ∈ es := by
  intro es
  induction es with
  | nil => intro init h; exact Or.inl h
  | cons p rest ih =>
    intro init h
    rcases ih h with h | h
    · rcases mem_dinsert h with h | h
      · refine Or.inr ?_
        rw [h]
        exact List.mem_cons_self p rest
      · exact Or.inl h
    · exact Or.inr (List.mem_cons_of_mem _ h)

theorem dinsertAll_fresh {K V : Type} [DecidableEq K] :
    ∀ (es init : List (K × V)), (es.map Prod.fst).Nodup →
      (∀ k ∈ es.map Prod.fst, k ∉ init.map Prod.fst) →
      dinsertAll init es = init ++ es := by
  intro es
  induction es with
  | nil => intro init _ _; simp [dinsertAll]
  | cons p rest ih =>
    intro init hn hf
    simp only [List.map_cons, List.nodup_cons] at hn
    have hstep : dinsertAll init (p :: rest) = dinsertAll (dinsert p.1 p.2 init) rest := rfl
    rw [hstep, dinsert_fresh _ _ _ (hf p.1 (by simp))]
    rw [ih (init ++ [(p.1, p.2)]) hn.2 ?_]
    · simp
    · intro k hk hmem
      simp only [List.map_append, List.mem_append] at hmem
      rcases hmem with hmem | hmem
      · exact hf k (List.mem_cons_of_mem _ hk) hmem
      · simp only [List.map_cons, List.map_nil, List.mem_singleton] at hmem
        exact hn.1 (hmem ▸ hk)

theorem dinsertAll_nil_nodup {K V : Type} [DecidableEq K] (es : List (K × V))
    (hn : (es.map Prod.fst).Nodup) : dinsertAll [] es = es := by
  simpa using dinsertAll_fresh es [] hn (by simp)

theorem idxOf_lt_length {α : Type} [DecidableEq α] {x : α} :
    ∀ {l : List α}, x ∈ l → idxOf l x < l.length := by
  intro l
  induction l with
  | nil => simp
  | cons a rest ih =>
    intro h
    by_cases ha : a = x
    · simp [idxOf, ha]
    · have hx : x ∈ rest := by
        rcases List.mem_cons.1 h with h | h
        · exact absurd h.symm ha
        · exact h
      simpa [idxOf, ha] using ih hx

theorem idxOf_append_left {α : Type} [DecidableEq α] {x : α} :
    ∀ {l₁ : List α} (l₂ : List α), x ∈ l₁ → idxOf (l₁ ++ l₂) x = idxOf l₁ x := by
  intro l₁
  induction l₁ with
  | nil => simp
  | cons a rest ih =>
    intro l₂ h
    by_cases ha : a = x
    · simp [idxOf, ha]
    · have hx : x ∈ rest := by
        rcases List.mem_cons.1 h with h | h
        · exact absurd h.symm ha
        · exact h
      simp [idxOf, ha, ih l₂ hx]

theorem idxOf_append_right {α : Type} [DecidableEq α] {x : α} :
    ∀ {l₁ : List α} (l₂ : List α), x ∉ l₁ →
      idxOf (l₁ ++ l₂) x = l₁.length + idxOf l₂ x := by
  intro l₁
  induction l₁ with
  | nil => simp [idxOf]
  | cons a rest ih =>
    intro l₂ h
    have ha : a ≠ x := by
      intro he
      apply h
      rw [he]
      exact List.mem_cons_self x rest
    have hx : x ∉ rest := fun hm => h (List.mem_cons_of_mem a hm)
    have hstep : idxOf ((a :: rest) ++ l₂) x = idxOf (rest ++ l₂) x + 1 := by
      simp [idxOf, ha]
    rw [hstep, ih l₂ hx, List.length_cons]
    omega

theorem digitVal_digitChar {d : Nat} (h : d < 10) : digitVal (digitChar d) = d := by
  interval_cases d <;> decide

theorem parse_append_digit (l : List Char) (c : Char) :
    parseDigits (l ++ [c]) = 10 * parseDigits l + digitVal c := by
  simp [parseDigits, List.foldl_append]

theorem natCharsAux_parse : ∀ (fuel n : Nat), n + 1 ≤ fuel →
    parseDigits (natCharsAux fuel n) = n := by
  intro fuel
  induction fuel with
  | zero => intro n h; omega
  | succ f ih =>
    intro n h
    by_cases hn : n < 10
    · simp [natCharsAux, hn, parseDigits, digitVal_digitChar hn]
    · have hdiv : n / 10 < n := Nat.div_lt_self (by omega) (by omega)
      simp only [natCharsAux, hn, if_false, parse_append_digit,
        ih (n / 10) (by omega), digitVal_digitChar (Nat.mod_lt n (by omega))]
      omega

theorem natStr_inj {m n : Nat} (h : natStr m = natStr n) : m = n := by
  have hd : natCharsAux (m + 1) m = natCharsAux (n + 1) n := congrArg String.data h
  have hp := congrArg parseDigits hd
  rwa [natCharsAux_parse _ _ (Nat.le_refl _), natCharsAux_parse _ _ (Nat.le_refl _)] at hp

theorem listLtB_conn {α : Type} {lt : α → α → Bool}
    (hconn : ∀ x y z, lt z x = true → lt z y = true ∨ lt y x = true) :
    ∀ c a b : List α, listLtB lt c a = true →
      listLtB lt c b = true ∨ listLtB lt b a = true := by
  intro c
  induction c with
  | nil =>
    intro a b h
    cases a with
    | nil => simp [listLtB] at h
    | cons x as =>
      cases b with
      | nil => exact Or.inr (by simp [listLtB])
      | cons y bs => exact Or.inl (by simp [listLtB])
  | cons cc cs ih =>
    intro a b h
    cases a with
    | nil => simp [listLtB] at h
    | cons x as =>
      cases b with
      | nil => exact Or.inr (by simp [listLtB])
      | cons y bs =>
        by_cases h1 : lt cc x = true
        · rcases hconn x y cc h1 with h2 | h2
          · exact Or.inl (by simp [listLtB, h2])
          · exact Or.inr (by simp [listLtB, h2])
        · by_cases h2 : lt x cc = true
          · exfalso
            simp [listLtB, h1, h2] at h
          · have htl : listLtB lt cs as = true := by
              simpa [listLtB, h1, h2] using h
            by_cases h3 : lt cc y = true
            · exact Or.inl (by simp [listLtB, h3])
            · by_cases h4 : lt y cc = true
              · rcases hconn cc x y h4 with h5 | h5
                · exact Or.inr (by simp [listLtB, h5])
                · exact absurd h5 h2
              · have hyx : ¬ lt y x = true := by
                  intro hyx'
                  rcases hconn x cc y hyx' with h5 | h5
                  · exact h4 h5
                  · exact h1 h5
                have hxy : ¬ lt x y = true := by
                  intro hxy'
                  rcases hconn y cc x hxy' with h5 | h5
                  · exact h2 h5
                  · exact h3 h5
                rcases ih as bs htl with h5 | h5
                · exact Or.inl (by simp [listLtB, h3, h4, h5])
                · exact Or.inr (by simp [listLtB, hyx, hxy, h5])

theorem listLtB_asym {α : Type} {lt : α → α → Bool}
    (hasym : ∀ x y, lt x y = true → lt y x = false) :
    ∀ a b : List α, listLtB lt a b = true → listLtB lt b a = false := by
  intro a
  induction a with
  | nil =>
    intro b h
    cases b with
    | nil => simp [listLtB] at h
    | cons y bs => simp [listLtB]
  | cons x as ih =>
    intro b h
    cases b with
    | nil => simp [listLtB] at h
    | cons y bs =>
      by_cases h1 : lt x y = true
      · have h2 := hasym x y h1
        simp [listLtB, h2, h1]
      · by_cases h2 : lt y x = true
        · simp [listLtB, h1, h2] at h
        · have htl : listLtB lt as bs = true := by
            simpa [listLtB, h1, h2] using h
          simp [listLtB, h1, h2, ih bs htl]

theorem listLtB_eq_of_not {α : Type} {lt : α → α → Bool}
    (heq : ∀ x y, lt x y = false → lt y x = false → x = y) :
    ∀ a b : List α, listLtB lt a b = false → listLtB lt b a = false → a = b := by
  intro a
  induction a with
  | nil =>
    intro b h1 h2
    cases b with
    | nil => rfl
    | cons y bs => simp [listLtB] at h1
  | cons x as ih =>
    intro b h1 h2
    cases b with
    | nil => simp [listLtB] at h2
    | cons y bs =>
      by_cases hxy : lt x y = true
      · simp [listLtB, hxy] at h1
      · by_cases hyx : lt y x = true
        · simp [listLtB, hyx] at h2
        · have hx : lt x y = false := by
            cases hv : lt x y
            · rfl
            · exact absurd hv hxy
          have hy : lt y x = false := by
            cases hv : lt y x
            · rfl
            · exact absurd hv hyx
          have hhd : x = y := heq x y hx hy
          have ht1 : listLtB lt as bs = false := by
            simpa [listLtB, hxy, hyx] using h1
          have ht2 : listLtB lt bs as = false := by
            simpa [listLtB, hxy, hyx] using h2
          rw [hhd, ih bs ht1 ht2]

theorem listLtB_irrefl {α : Type} {lt : α → α → Bool}
    (hirr : ∀ x, lt x x = false) : ∀ a : List α, listLtB lt a a = false := by
  intro a
  induction a with
  | nil => simp [listLtB]
  | cons x as ih => simp [listLtB, hirr x, ih]

theorem charLtB_conn : ∀ x y z : Char, charLtB z x = true →
    charLtB z y = true ∨ charLtB y x = true := by
  intro x y z h
  simp only [charLtB, decide_eq_true_eq] at h ⊢
  omega

theorem charLtB_asym : ∀ x y : Char, charLtB x y = true → charLtB y x = false := by
  intro x y h
  simp only [charLtB, decide_eq_true_eq, decide_eq_false_iff_not] at h ⊢
  omega

theorem charLtB_eq_of_not : ∀ x y : Char, charLtB x y = false → charLtB y x = false → x = y := by
  intro x y h1 h2
  simp only [charLtB, decide_eq_false_iff_not] at h1 h2
  have hn : x.toNat = y.toNat := by omega
  apply Char.eq_of_val_eq
  apply UInt32.eq_of_toBitVec_eq
  apply BitVec.eq_of_toNat_eq
  exact hn

theorem charLtB_irrefl : ∀ x : Char, charLtB x x = false := by
  intro x
  simp [charLtB]

theorem strLtB_conn : ∀ x y z : String, strLtB z x = true →
    strLtB z y = true ∨ strLtB y x = true := by
  intro x y z h
  exact listLtB_conn charLtB_conn z.data x.data y.data h

theorem strLtB_asym : ∀ x y : String, strLtB x y = true → strLtB y x = false := by
  intro x y h
  exact listLtB_asym charLtB_asym x.data y.data h

theorem strLtB_eq_of_not : ∀ x y : String,
    strLtB x y = false → strLtB y x = false → x = y := by
  intro x y h1 h2
  exact String.ext (listLtB_eq_of_not charLtB_eq_of_not x.data y.data h1 h2)

theorem strLtB_irrefl : ∀ x : String, strLtB x x = false := by
  intro x
  exact listLtB_irrefl charLtB_irrefl x.data

theorem keyLtB_conn : ∀ x y z : AssetKey, listLtB strLtB z x = true →
    listLtB strLtB z y = true ∨ listLtB strLtB y x = true :=
  fun x y z h => listLtB_conn strLtB_conn z x y h

theorem keyLtB_asym : ∀ x y : AssetKey, listLtB strLtB x y = true →
    listLtB strLtB y x = false :=
  fun x y h => listLtB_asym strLtB_asym x y h

theorem keyLtB_eq_of_not : ∀ x y : AssetKey, listLtB strLtB x y = false →
    listLtB strLtB y x = false → x = y :=
  fun x y h1 h2 => listLtB_eq_of_not strLtB_eq_of_not x y h1 h2

theorem keysLtB_conn : ∀ x y z : List AssetKey, listLtB (listLtB strLtB) z x = true →
    listLtB (listLtB strLtB) z y = true ∨ listLtB (listLtB strLtB) y x = true :=
  fun x y z h => listLtB_conn keyLtB_conn z x y h

theorem keysLtB_asym : ∀ x y : List AssetKey, listLtB (listLtB strLtB) x y = true →
    listLtB (listLtB strLtB) y x = false :=
  fun x y h => listLtB_asym keyLtB_asym x y h

theorem keysLtB_eq_of_not : ∀ x y : List AssetKey, listLtB (listLtB strLtB) x y = false →
    listLtB (listLtB strLtB) y x = false → x = y :=
  fun x y h1 h2 => listLtB_eq_of_not keyLtB_eq_of_not x y h1 h2

theorem keysLtB_irrefl : ∀ x : List AssetKey, listLtB (listLtB strLtB) x x = false :=
  listLtB_irrefl (listLtB_irrefl strLtB_irrefl)

theorem adLe_refl (x : AssetsDefinition) : adLe x x := keysLtB_irrefl (sortKey x)

instance : IsTotal AssetsDefinition adLe := by
  constructor
  intro x y
  by_cases h : listLtB (listLtB strLtB) (sortKey y) (sortKey x) = true
  · exact Or.inr (keysLtB_asym _ _ h)
  · refine Or.inl ?_
    cases hv : listLtB (listLtB strLtB) (sortKey y) (sortKey x)
    · exact hv
    · exact absurd hv h

instance : IsTrans AssetsDefinition adLe := by
  constructor
  intro x y z h1 h2
  by_contra hc
  have hc' : listLtB (listLtB strLtB) (sortKey z) (sortKey x) = true := by
    cases hv : listLtB (listLtB strLtB) (sortKey z) (sortKey x)
    · exact absurd hv hc
    · rfl
  rcases keysLtB_conn (sortKey x) (sortKey y) (sortKey z) hc' with h | h
  · rw [h2] at h
    simp at h
  · rw [h1] at h
    simp at h

theorem sortedDefs_unique : ∀ (l₁ l₂ : List AssetsDefinition), l₁.Perm l₂ →
    l₁.Sorted adLe → l₂.Sorted adLe → (l₁.map sortKey).Nodup → l₁ = l₂ := by
  intro l₁
  induction l₁ with
  | nil =>
    intro l₂ hp _ _ _
    exact (List.Perm.nil_eq hp)
  | cons a t₁ ih =>
    intro l₂ hp hs₁ hs₂ hn
    cases l₂ with
    | nil =>
      have := hp.length_eq
      simp at this
    | cons b t₂ =>
      have hab : b ∈ a :: t₁ := hp.mem_iff.2 (List.mem_cons_self b t₂)
      have hba : a ∈ b :: t₂ := hp.mem_iff.1 (List.mem_cons_self a t₁)
      have h1 : adLe a b := by
        rcases List.mem_cons.1 hab with h | h
        · rw [h]
          exact adLe_refl a
        · exact (List.sorted_cons.1 hs₁).1 b h
      have h2 : adLe b a := by
        rcases List.mem_cons.1 hba with h | h
        · rw [h]
          exact adLe_refl b
        · exact (List.sorted_cons.1 hs₂).1 a h
      have hsk : sortKey a = sortKey b := keysLtB_eq_of_not _ _ h2 h1
      have hbeq : b = a := by
        rcases List.mem_cons.1 hab with h | h
        · exact h
        · exfalso
          have hmem : sortKey b ∈ t₁.map sortKey := List.mem_map_of_mem sortKey h
          rw [← hsk] at hmem
          simp only [List.map_cons, List.nodup_cons] at hn
          exact hn.1 hmem
      subst hbeq
      have ht : t₁.Perm t₂ := (List.perm_cons b).1 hp
      have hnt : (t₁.map sortKey).Nodup := by
        simp only [List.map_cons, List.nodup_cons] at hn
        exact hn.2
      rw [ih t₂ ht (List.sorted_cons.1 hs₁).2 (List.sorted_cons.1 hs₂).2 hnt]

theorem sortDefs_sorted (assets : List AssetsDefinition) : (sortDefs assets).Sorted adLe :=
  List.sorted_insertionSort adLe assets

theorem sortDefs_perm (assets : List AssetsDefinition) : (sortDefs assets).Perm assets :=
  List.perm_insertionSort adLe assets

theorem sortDefs_congr_of_perm {l₁ l₂ : List AssetsDefinition} (hp : l₁.Perm l₂)
    (hn : (l₁.map sortKey).Nodup) : sortDefs l₁ = sortDefs l₂ := by
  apply sortedDefs_unique
  · exact (sortDefs_perm l₁).trans (hp.trans (sortDefs_perm l₂).symm)
  · exact sortDefs_sorted l₁
  · exact sortDefs_sorted l₂
  · exact ((sortDefs_perm l₁).map sortKey).symm.nodup hn

theorem filter_split_length {α : Type} (p q : α → Bool) (hpq : ∀ x, q x = !p x) :
    ∀ l : List α, (l.filter p).length + (l.filter q).length = l.length := by
  intro l
  induction l with
  | nil => simp
  | cons a rest ih =>
    cases hv : p a
    · have hq : q a = true := by rw [hpq a, hv]; rfl
      simp [List.filter_cons, hv, hq]
      omega
    · have hq : q a = false := by rw [hpq a, hv]; rfl
      simp [List.filter_cons, hv, hq]
      omega

theorem eq_of_mem_nodup_keys {α β : Type} {l : List (α × β)} {a b : α × β}
    (hn : (l.map Prod.fst).Nodup) (ha : a ∈ l) (hb : b ∈ l) (hk : a.1 = b.1) : a = b := by
  induction l with
  | nil => simp at ha
  | cons p rest ih =>
    simp only [List.map_cons, List.nodup_cons] at hn
    rcases List.mem_cons.1 ha with ha' | ha'
    · rcases List.mem_cons.1 hb with hb' | hb'
      · rw [ha', hb']
      · exfalso
        apply hn.1
        rw [← ha', hk]
        exact List.mem_map_of_mem Prod.fst hb'
    · rcases List.mem_cons.1 hb with hb' | hb'
      · exfalso
        apply hn.1
        rw [← hb', ← hk]
        exact List.mem_map_of_mem Prod.fst ha'
      · exact ih hn.2 ha' hb'

theorem kahnStep_ready_def {α : Type} [DecidableEq α] (pending : List (α × List α)) :
    (kahnStep pending).1 = (pending.filter (fun p => decide (p.2 = []))).map Prod.fst := rfl

theorem kahnStep_rest_def {α : Type} [DecidableEq α] (pending : List (α × List α)) :
    (kahnStep pending).2 = (pending.filter (fun p => decide (p.2 ≠ []))).map
      (fun p => (p.1, p.2.filter (fun d => decide (d ∉ (kahnStep pending).1)))) := rfl

theorem kahnStep_rest_keys {α : Type} [DecidableEq α] (pending : List (α × List α)) :
    (kahnStep pending).2.map Prod.fst =
      (pending.filter (fun p => decide (p.2 ≠ []))).map Prod.fst := by
  rw [kahnStep_rest_def, List.map_map]
  rfl

theorem kahnStep_rest_keys_sublist {α : Type} [DecidableEq α] (pending : List (α × List α)) :
    ((kahnStep pending).2.map Prod.fst).Sublist (pending.map Prod.fst) := by
  rw [kahnStep_rest_keys]
  exact (List.filter_sublist pending).map Prod.fst

theorem kahnStep_rest_length {α : Type} [DecidableEq α] (pending : List (α × List α))
    (h : (kahnStep pending).1 ≠ []) : (kahnStep pending).2.length < pending.length := by
  have hsplit := filter_split_length (fun p : α × List α => decide (p.2 = []))
    (fun p : α × List α => decide (p.2 ≠ [])) (fun x => by simp [decide_not]) pending
  have hready : (pending.filter (fun p => decide (p.2 = []))).length ≠ 0 := by
    intro hz
    apply h
    rw [kahnStep_ready_def]
    rw [List.length_eq_zero] at hz
    rw [hz]
    rfl
  have hrest : (kahnStep pending).2.length =
      (pending.filter (fun p => decide (p.2 ≠ []))).length := by
    rw [kahnStep_rest_def, List.length_map]
  omega

theorem mem_kahnStep_rest {α : Type} [DecidableEq α] {pending : List (α × List α)}
    {p : α × List α} (h : p ∈ (kahnStep pending).2) :
    ∃ q ∈ pending, q.2 ≠ [] ∧ p.1 = q.1 ∧
      ∀ d ∈ p.2, d ∈ q.2 ∧ d ∉ (kahnStep pending).1 := by
  rw [kahnStep_rest_def] at h
  rcases List.mem_map.1 h with ⟨q, hq, hpq⟩
  rcases List.mem_filter.1 hq with ⟨hqmem, hqne⟩
  refine ⟨q, hqmem, by simpa using hqne, by rw [← hpq], ?_⟩
  intro d hd
  rw [← hpq] at hd
  rcases List.mem_filter.1 hd with ⟨hdq, hdr⟩
  exact ⟨hdq, by simpa using hdr⟩

theorem mem_ready_of_key {α : Type} [DecidableEq α] {pending : List (α × List α)}
    {e : α × List α} (he : e ∈ pending) (hnil : e.2 = []) :
    e.1 ∈ (kahnStep pending).1 := by
  rw [kahnStep_ready_def]
  exact List.mem_map_of_mem Prod.fst (List.mem_filter.2 ⟨he, by simpa using hnil⟩)

theorem mem_restkeys_of_key {α : Type} [DecidableEq α] {pending : List (α × List α)}
    {e : α × List α} (he : e ∈ pending) (hne : e.2 ≠ []) :
    e.1 ∈ (kahnStep pending).2.map Prod.fst := by
  rw [kahnStep_rest_keys]
  exact List.mem_map_of_mem Prod.fst (List.mem_filter.2 ⟨he, by simpa using hne⟩)

theorem kahnStep_deps_closed {α : Type} [DecidableEq α] {pending : List (α × List α)}
    (hcl : ∀ p ∈ pending, ∀ d ∈ p.2, d ∈ pending.map Prod.fst) :
    ∀ p ∈ (kahnStep pending).2, ∀ d ∈ p.2, d ∈ (kahnStep pending).2.map Prod.fst := by
  intro p hp d hd
  rcases mem_kahnStep_rest hp with ⟨q, hqmem, _, _, hall⟩
  rcases hall d hd with ⟨hdq, hdnr⟩
  have hdk : d ∈ pending.map Prod.fst := hcl q hqmem d hdq
  rcases List.mem_map.1 hdk with ⟨e, hemem, hekey⟩
  by_cases hee : e.2 = []
  · exfalso
    apply hdnr
    rw [← hekey]
    exact mem_ready_of_key hemem hee
  · rw [← hekey]
    exact mem_restkeys_of_key hemem hee

theorem exists_min_idx {α : Type} [DecidableEq α] (ord : List α) :
    ∀ l : List (α × List α), l ≠ [] →
      ∃ p ∈ l, ∀ q ∈ l, idxOf ord p.1 ≤ idxOf ord q.1 := by
  intro l
  induction l with
  | nil => intro h; exact absurd rfl h
  | cons a rest ih =>
    intro _
    cases rest with
    | nil =>
      refine ⟨a, List.mem_cons_self a [], ?_⟩
      intro q hq
      rcases List.mem_cons.1 hq with h | h
      · rw [h]
      · simp at h
    | cons b t =>
      rcases ih (by simp) with ⟨p, hp, hmin⟩
      by_cases hle : idxOf ord a.1 ≤ idxOf ord p.1
      · refine ⟨a, List.mem_cons_self a _, ?_⟩
        intro q hq
        rcases List.mem_cons.1 hq with h | h
        · rw [h]
        · exact le_trans hle (hmin q h)
      · refine ⟨p, List.mem_cons_of_mem a hp, ?_⟩
        intro q hq
        rcases List.mem_cons.1 hq with h | h
        · rw [h]; omega
        · exact hmin q h

theorem kahnRun_complete {α : Type} [DecidableEq α] (ord : List α) :
    ∀ (fuel : Nat) (pending : List (α × List α)),
      pending.length ≤ fuel →
      (pending.map Prod.fst).Nodup →
      (∀ p ∈ pending, ∀ d ∈ p.2, d ∈ pending.map Prod.fst) →
      (∀ p ∈ pending, ∀ d ∈ p.2, idxOf ord d < idxOf ord p.1) →
      (kahnRun fuel pending).isSome = true := by
  intro fuel
  induction fuel with
  | zero =>
    intro pending hlen _ _ _
    have : pending = [] := List.length_eq_zero.1 (Nat.le_zero.1 hlen)
    rw [this]
    rfl
  | succ f ih =>
    intro pending hlen hn hcl hidx
    cases hpe : pending with
    | nil => rfl
    | cons q qs =>
      rw [← hpe]
      have hne : pending ≠ [] := by rw [hpe]; simp
      rcases exists_min_idx ord pending hne with ⟨p₀, hp₀, hmin⟩
      have hp₀nil : p₀.2 = [] := by
        cases hd : p₀.2 with
        | nil => rfl
        | cons d ds =>
          exfalso
          have hdmem : d ∈ p₀.2 := by rw [hd]; exact List.mem_cons_self d ds
          have hlt := hidx p₀ hp₀ d hdmem
          have hdk : d ∈ pending.map Prod.fst := hcl p₀ hp₀ d hdmem
          rcases List.mem_map.1 hdk with ⟨e, hemem, hekey⟩
          have := hmin e hemem
          rw [hekey] at this
          omega
      have hready : (kahnStep pending).1 ≠ [] := by
        intro hz
        have := mem_ready_of_key hp₀ hp₀nil
        rw [hz] at this
        simp at this
      have hrun : kahnRun (f + 1) pending =
          (if (kahnStep pending).1 = [] then none
           else match kahnRun f (kahnStep pending).2 with
                | some layers => some ((kahnStep pending).1 :: layers)
                | none => none) := by
        rw [hpe]
        rfl
      rw [hrun, if_neg hready]
      have hrec : (kahnRun f (kahnStep pending).2).isSome = true := by
        apply ih
        · have := kahnStep_rest_length pending hready
          omega
        · exact (kahnStep_rest_keys_sublist pending).nodup hn
        · exact kahnStep_deps_closed hcl
        · intro p hp d hd
          rcases mem_kahnStep_rest hp with ⟨r, hrmem, _, hkey, hall⟩
          rw [hkey]
          exact hidx r hrmem d (hall d hd).1
      cases hres : kahnRun f (kahnStep pending).2 with
      | some layers => rfl
      | none => rw [hres] at hrec; simp at hrec

theorem kahnRun_sound {α : Type} [DecidableEq α] :
    ∀ (fuel : Nat) (pending : List (α × List α)) (layers : List (List α)),
      kahnRun fuel pending = some layers →
      (pending.map Prod.fst).Nodup →
      (∀ p ∈ pending, ∀ d ∈ p.2, d ∈ pending.map Prod.fst) →
      layers.flatten.Nodup ∧
      (∀ k ∈ pending.map Prod.fst, k ∈ layers.flatten) ∧
      (∀ x ∈ layers.flatten, x ∈ pending.map Prod.fst) ∧
      (∀ p ∈ pending, ∀ d ∈ p.2, idxOf layers.flatten d < idxOf layers.flatten p.1) := by
  intro fuel
  induction fuel with
  | zero =>
    intro pending layers hrun hn hcl
    cases pending with
    | cons q qs => simp [kahnRun] at hrun
    | nil =>
      have : layers = [] := by
        have : (some [] : Option (List (List α))) = some layers := hrun
        injection this with h
        exact h.symm
      subst this
      refine ⟨by simp, by simp, by simp, by simp⟩
  | succ f ih =>
    intro pending layers hrun hn hcl
    by_cases hpe : pending = []
    · subst hpe
      have hl : layers = [] := by
        have h0 : (some [] : Option (List (List α))) = some layers := hrun
        injection h0 with h0
        exact h0.symm
      subst hl
      refine ⟨by simp, by simp, by simp, by simp⟩
    · have hrun' : (if (kahnStep pending).1 = [] then none
           else match kahnRun f (kahnStep pending).2 with
                | some ls => some ((kahnStep pending).1 :: ls)
                | none => none) = some layers := by
        rw [← hrun]
        cases pending with
        | nil => exact absurd rfl hpe
        | cons q qs => rfl
      by_cases hready : (kahnStep pending).1 = []
      · rw [if_pos hready] at hrun'
        exact absurd hrun' (by simp)
      · rw [if_neg hready] at hrun'
        cases hres : kahnRun f (kahnStep pending).2 with
        | none => rw [hres] at hrun'; exact absurd hrun' (by simp)
        | some ls =>
          rw [hres] at hrun'
          have hlayers : layers = (kahnStep pending).1 :: ls := by
            injection hrun' with h
            exact h.symm
          subst hlayers
          have hrestn : ((kahnStep pending).2.map Prod.fst).Nodup :=
            (kahnStep_rest_keys_sublist pending).nodup hn
          have hrestcl := kahnStep_deps_closed hcl
          rcases ih (kahnStep pending).2 ls hres hrestn hrestcl with ⟨ihnd, ihcomp, ihsub, ihidx⟩
          have hreadykeys : ∀ x ∈ (kahnStep pending).1, x ∈ pending.map Prod.fst := by
            intro x hx
            rw [kahnStep_ready_def] at hx
            rcases List.mem_map.1 hx with ⟨e, hemem, hekey⟩
            rw [← hekey]
            exact List.mem_map_of_mem Prod.fst (List.mem_of_mem_filter hemem)
          have hreadynd : (kahnStep pending).1.Nodup := by
            rw [kahnStep_ready_def]
            exact ((List.filter_sublist pending).map Prod.fst).nodup hn
          have hdisj : ∀ x ∈ (kahnStep pending).1, x ∉ ls.flatten := by
            intro x hx hxl
            have hxrest := ihsub x hxl
            rw [kahnStep_ready_def] at hx
            rcases List.mem_map.1 hx with ⟨e₁, he₁, hk₁⟩
            rw [kahnStep_rest_keys] at hxrest
            rcases List.mem_map.1 hxrest with ⟨e₂, he₂, hk₂⟩
            have he₁p := List.mem_of_mem_filter he₁
            have he₂p := List.mem_of_mem_filter he₂
            have : e₁ = e₂ := eq_of_mem_nodup_keys hn he₁p he₂p (by rw [hk₁, hk₂])
            have h1 : e₁.2 = [] := by simpa using (List.mem_filter.1 he₁).2
            have h2 : e₂.2 ≠ [] := by simpa using (List.mem_filter.1 he₂).2
            rw [this] at h1
            exact h2 h1
          have hflat : ((kahnStep pending).1 :: ls).flatten =
              (kahnStep pending).1 ++ ls.flatten := rfl
          refine ⟨?_, ?_, ?_, ?_⟩
          · rw [hflat]
            exact List.Nodup.append hreadynd ihnd (fun x hx => hdisj x hx)
          · intro k hk
            rw [hflat]
            rcases List.mem_map.1 hk with ⟨e, hemem, hekey⟩
            by_cases hee : e.2 = []
            · exact List.mem_append_left _ (hekey ▸ mem_ready_of_key hemem hee)
            · exact List.mem_append_right _
                (ihcomp k (hekey ▸ mem_restkeys_of_key hemem hee))
          · intro x hx
            rw [hflat] at hx
            rcases List.mem_append.1 hx with hx | hx
            · exact hreadykeys x hx
            · have hxm := ihsub x hx
              rcases List.mem_map.1 hxm with ⟨e, hemem, hekey⟩
              rcases mem_kahnStep_rest hemem with ⟨q, hqmem, _, hkey, _⟩
              rw [← hekey, hkey]
              exact List.mem_map_of_mem Prod.fst hqmem
          · intro p hp d hd
            rw [hflat]
            have hpne : p.2 ≠ [] := by
              intro hz
              rw [hz] at hd
              simp at hd
            have hpkey_not_ready : p.1 ∉ (kahnStep pending).1 := by
              intro hin
              rw [kahnStep_ready_def] at hin
              rcases List.mem_map.1 hin with ⟨e, hemem, hekey⟩
              have heq : e = p :=
                eq_of_mem_nodup_keys hn (List.mem_of_mem_filter hemem) hp hekey
              have : e.2 = [] := by simpa using (List.mem_filter.1 hemem).2
              rw [heq] at this
              exact hpne this
            have hprest : (p.1, p.2.filter
                (fun d => decide (d ∉ (kahnStep pending).1))) ∈ (kahnStep pending).2 := by
              rw [kahnStep_rest_def]
              exact List.mem_map_of_mem _ (List.mem_filter.2 ⟨hp, by simpa using hpne⟩)
            by_cases hdready : d ∈ (kahnStep pending).1
            · have h1 : idxOf ((kahnStep pending).1 ++ ls.flatten) d =
                  idxOf (kahnStep pending).1 d := idxOf_append_left _ hdready
              have h2 : idxOf ((kahnStep pending).1 ++ ls.flatten) p.1 =
                  (kahnStep pending).1.length + idxOf ls.flatten p.1 :=
                idxOf_append_right _ hpkey_not_ready
              have h3 : idxOf (kahnStep pending).1 d < (kahnStep pending).1.length :=
                idxOf_lt_length hdready
              omega
            · have hdfil : d ∈ p.2.filter (fun d => decide (d ∉ (kahnStep pending).1)) :=
                List.mem_filter.2 ⟨hd, by simpa using hdready⟩
              have hlt0 := ihidx _ hprest d hdfil
              have hlt : idxOf ls.flatten d < idxOf ls.flatten p.1 := hlt0
              have h1 : idxOf ((kahnStep pending).1 ++ ls.flatten) d =
                  (kahnStep pending).1.length + idxOf ls.flatten d :=
                idxOf_append_right _ hdready
              have h2 : idxOf ((kahnStep pending).1 ++ ls.flatten) p.1 =
                  (kahnStep pending).1.length + idxOf ls.flatten p.1 :=
                idxOf_append_right _ hpkey_not_ready
              omega

theorem map_fst_tpNormalize {α : Type} [DecidableEq α] (data : List (α × List α)) :
    (tpNormalize data).map Prod.fst =
      data.map Prod.fst ++
        (((data.map Prod.snd).flatten).dedup).filter
          (fun x => decide (x ∉ data.map Prod.fst)) := by
  simp only [tpNormalize, List.map_append, List.map_map]
  congr 1
  rw [show (Prod.fst ∘ fun x : α => (x, ([] : List α))) = id from rfl, List.map_id]

theorem tpNormalize_keys_mem {α : Type} [DecidableEq α] (data : List (α × List α)) (x : α) :
    x ∈ (tpNormalize data).map Prod.fst ↔ x ∈ tpItems data := by
  rw [map_fst_tpNormalize]
  simp only [tpItems, List.mem_append, List.mem_dedup, List.mem_filter, decide_eq_true_eq]
  by_cases hk : x ∈ data.map Prod.fst
  · simp [hk]
  · simp [hk]

theorem tpNormalize_nodup {α : Type} [DecidableEq α] (data : List (α × List α))
    (hn : (data.map Prod.fst).Nodup) : ((tpNormalize data).map Prod.fst).Nodup := by
  rw [map_fst_tpNormalize]
  refine List.Nodup.append hn (List.Nodup.filter _ (List.nodup_dedup _)) ?_
  intro x hx hx2
  rcases List.mem_filter.1 hx2 with ⟨_, hdec⟩
  rw [decide_eq_true_eq] at hdec
  exact hdec hx

theorem tpNormalize_deps_closed {α : Type} [DecidableEq α] (data : List (α × List α)) :
    ∀ p ∈ tpNormalize data, ∀ d ∈ p.2, d ∈ (tpNormalize data).map Prod.fst := by
  intro p hp d hd
  rcases List.mem_append.1 hp with hp | hp
  · rcases List.mem_map.1 hp with ⟨q, hq, hpe⟩
    rw [← hpe] at hd
    have hdq : d ∈ q.2 := List.mem_of_mem_filter hd
    apply (tpNormalize_keys_mem data d).2
    simp only [tpItems, List.mem_dedup, List.mem_append]
    right
    exact List.mem_flatten.2 ⟨q.2, List.mem_map_of_mem Prod.snd hq, hdq⟩
  · rcases List.mem_map.1 hp with ⟨x, _, hpe⟩
    rw [← hpe] at hd
    simp at hd

theorem tpNormalize_idx {α : Type} [DecidableEq α] (data : List (α × List α))
    (ord : List α) (h : IsTopoOrder data ord) :
    ∀ p ∈ tpNormalize data, ∀ d ∈ p.2, idxOf ord d < idxOf ord p.1 := by
  intro p hp d hd
  rcases List.mem_append.1 hp with hp | hp
  · rcases List.mem_map.1 hp with ⟨q, hq, hpe⟩
    rw [← hpe] at hd ⊢
    rcases List.mem_filter.1 hd with ⟨hdq, hdec⟩
    have hdne : d ≠ q.1 := by simpa using hdec
    exact (h.2.2 q hq d hdq).resolve_left hdne
  · rcases List.mem_map.1 hp with ⟨x, _, hpe⟩
    rw [← hpe] at hd
    simp at hd

theorem toposort_isSome_iff {α : Type} [DecidableEq α] (data : List (α × List α))
    (hn : (data.map Prod.fst).Nodup) :
    ((toposort data).isSome = true) ↔ ∃ ord, IsTopoOrder data ord := by
  constructor
  · intro h
    cases hres : toposort data with
    | none => rw [hres] at h; simp at h
    | some layers =>
      have hrun : kahnRun (tpNormalize data).length (tpNormalize data) = some layers := hres
      rcases kahnRun_sound _ _ _ hrun (tpNormalize_nodup data hn)
        (tpNormalize_deps_closed data) with ⟨hnd, hcomp, _, hidx⟩
      refine ⟨layers.flatten, hnd, ?_, ?_⟩
      · intro x hx
        exact hcomp x ((tpNormalize_keys_mem data x).2 hx)
      · intro p hp d hd
        by_cases hdne : d = p.1
        · exact Or.inl hdne
        · have hpn : (p.1, p.2.filter (fun e => decide (e ≠ p.1))) ∈ tpNormalize data :=
            List.mem_append_left _ (List.mem_map_of_mem _ hp)
          have hdf : d ∈ p.2.filter (fun e => decide (e ≠ p.1)) :=
            List.mem_filter.2 ⟨hd, by simpa using hdne⟩
          have hres0 := hidx _ hpn d hdf
          have hres1 : idxOf layers.flatten d < idxOf layers.flatten p.1 := hres0
          exact Or.inr hres1
  · rintro ⟨ord, hord⟩
    exact kahnRun_complete ord (tpNormalize data).length (tpNormalize data)
      (Nat.le_refl _) (tpNormalize_nodup data hn) (tpNormalize_deps_closed data)
      (tpNormalize_idx data ord hord)

theorem map_fst_nodeDepsOf (deps : List (NodeKey × List (String × DependencyDefinition))) :
    (nodeDepsOf deps).map Prod.fst = deps.map Prod.fst := by
  simp only [nodeDepsOf, List.map_map]
  rfl

theorem tpNormalize_edge {α : Type} [DecidableEq α] (data : List (α × List α)) :
    ∀ p ∈ tpNormalize data, ∀ d ∈ p.2, EdgeOf data d p.1 := by
  intro p hp d hd
  rcases List.mem_append.1 hp with hp | hp
  · rcases List.mem_map.1 hp with ⟨q, hq, hpe⟩
    rw [← hpe] at hd ⊢
    rcases List.mem_filter.1 hd with ⟨hdq, hdec⟩
    exact ⟨q, hq, rfl, hdq, by simpa using hdec⟩
  · rcases List.mem_map.1 hp with ⟨x, _, hpe⟩
    rw [← hpe] at hd
    simp at hd

theorem kahnRun_none_stuck {α : Type} [DecidableEq α] (E : α → α → Prop) :
    ∀ (fuel : Nat) (pending : List (α × List α)),
      pending.length ≤ fuel →
      (∀ p ∈ pending, ∀ d ∈ p.2, d ∈ pending.map Prod.fst) →
      (∀ p ∈ pending, ∀ d ∈ p.2, E d p.1) →
      kahnRun fuel pending = none →
      ∃ S : List (α × List α), S ≠ [] ∧ (∀ p ∈ S, p.2 ≠ []) ∧
        (∀ p ∈ S, ∀ d ∈ p.2, d ∈ S.map Prod.fst ∧ E d p.1) := by
  intro fuel
  induction fuel with
  | zero =>
    intro pending hlen _ _ hrun
    have hpe : pending = [] := List.length_eq_zero.1 (Nat.le_zero.1 hlen)
    rw [hpe] at hrun
    have hsome : kahnRun 0 ([] : List (α × List α)) = some [] := rfl
    rw [hsome] at hrun
    simp at hrun
  | succ f ih =>
    intro pending hlen hcl hE hrun
    by_cases hpe : pending = []
    · rw [hpe] at hrun
      have hsome : kahnRun (f + 1) ([] : List (α × List α)) = some [] := rfl
      rw [hsome] at hrun
      simp at hrun
    · have hrun2 : kahnRun (f + 1) pending =
          (if (kahnStep pending).1 = [] then none
           else match kahnRun f (kahnStep pending).2 with
                | some ls => some ((kahnStep pending).1 :: ls)
                | none => none) := by
        cases pending with
        | nil => exact absurd rfl hpe
        | cons q qs => rfl
      rw [hrun] at hrun2
      replace hrun2 := hrun2.symm
      by_cases hready : (kahnStep pending).1 = []
      · refine ⟨pending, hpe, ?_, ?_⟩
        · intro p hp hz
          have hm := mem_ready_of_key hp hz
          rw [hready] at hm
          simp at hm
        · intro p hp d hd
          exact ⟨hcl p hp d hd, hE p hp d hd⟩
      · rw [if_neg hready] at hrun2
        cases hres : kahnRun f (kahnStep pending).2 with
        | some ls => rw [hres] at hrun2; simp at hrun2
        | none =>
          apply ih (kahnStep pending).2
          · have := kahnStep_rest_length pending hready
            omega
          · exact kahnStep_deps_closed hcl
          · intro p hp d hd
            rcases mem_kahnStep_rest hp with ⟨q, hqmem, _, hkey, hall⟩
            rw [hkey]
            exact hE q hqmem d (hall d hd).1
          · exact hres

theorem cycle_of_pred {α : Type} [DecidableEq α] (E : α → α → Prop) (S : List α)
    (hne : S ≠ []) (h : ∀ y ∈ S, ∃ x, x ∈ S ∧ E x y) :
    ∃ v, Relation.TransGen E v v := by
  rcases List.exists_mem_of_ne_nil S hne with ⟨y0, hy0⟩
  have hch : ∀ y, ∃ x, y ∈ S → (x ∈ S ∧ E x y) := by
    intro y
    by_cases hy : y ∈ S
    · rcases h y hy with ⟨x, hx⟩
      exact ⟨x, fun _ => hx⟩
    · exact ⟨y0, fun hc => absurd hc hy⟩
  choose f hf using hch
  have hmem : ∀ n, f^[n] y0 ∈ S := by
    intro n
    induction n with
    | zero => exact hy0
    | succ n ihn =>
      rw [Function.iterate_succ_apply']
      exact (hf _ ihn).1
  have hstep : ∀ n, E (f^[n + 1] y0) (f^[n] y0) := by
    intro n
    rw [Function.iterate_succ_apply']
    exact (hf _ (hmem n)).2
  have hchain : ∀ d i, Relation.TransGen E (f^[i + d + 1] y0) (f^[i] y0) := by
    intro d
    induction d with
    | zero => intro i; exact Relation.TransGen.single (hstep i)
    | succ d ihd =>
      intro i
      exact Relation.TransGen.head (hstep (i + d + 1)) (ihd i)
  have hcard : S.toFinset.card < (Finset.range (S.length + 1)).card := by
    rw [Finset.card_range]
    exact Nat.lt_succ_of_le (List.toFinset_card_le S)
  have hmapsto : ∀ i ∈ Finset.range (S.length + 1), f^[i] y0 ∈ S.toFinset := by
    intro i _
    exact List.mem_toFinset.2 (hmem i)
  rcases Finset.exists_ne_map_eq_of_card_lt_of_maps_to hcard hmapsto with
    ⟨i, _, j, _, hij, heq⟩
  rcases Nat.lt_or_ge i j with hlt | hge
  · have hj2 : i + (j - i - 1) + 1 = j := by omega
    have hc := hchain (j - i - 1) i
    rw [hj2, ← heq] at hc
    exact ⟨f^[i] y0, hc⟩
  · have hlt : j < i := by omega
    have hj2 : j + (i - j - 1) + 1 = i := by omega
    have hc := hchain (i - j - 1) j
    rw [hj2, heq] at hc
    exact ⟨f^[j] y0, hc⟩

theorem toposort_none_cycle {α : Type} [DecidableEq α] (data : List (α × List α))
    (h : toposort data = none) : HasDirectedCycle data := by
  rcases kahnRun_none_stuck (EdgeOf data) (tpNormalize data).length (tpNormalize data)
      (Nat.le_refl _) (tpNormalize_deps_closed data) (tpNormalize_edge data) h with
    ⟨S, hSne, hS2, hSd⟩
  have hne : S.map Prod.fst ≠ [] := by
    intro hc
    apply hSne
    cases S with
    | nil => rfl
    | cons a t => simp at hc
  have hpred : ∀ y ∈ S.map Prod.fst, ∃ x, x ∈ S.map Prod.fst ∧ EdgeOf data x y := by
    intro y hy
    rcases List.mem_map.1 hy with ⟨p, hp, hpy⟩
    cases hd : p.2 with
    | nil => exact absurd hd (hS2 p hp)
    | cons d ds =>
      have hdmem : d ∈ p.2 := by rw [hd]; exact List.mem_cons_self d ds
      rcases hSd p hp d hdmem with ⟨hdk, hEd⟩
      rw [← hpy]
      exact ⟨d, hdk, hEd⟩
  exact cycle_of_pred (EdgeOf data) (S.map Prod.fst) hne hpred

/-- C2 (amended): on a dependency dict with distinct unit keys, the Cycle
Detector reports no cycle exactly when the unit-level graph obtained after
discarding self-edges admits a valid topological ordering, and it reports
a cycle exactly when the unit-level graph contains a directed cycle
through at least two distinct units — so an edge set whose cycles are all
self-loops is reported cycle-free. -/
theorem has_cycles_characterization
    (deps : List (NodeKey × List (String × DependencyDefinition)))
    (hn : (deps.map Prod.fst).Nodup) :
    (_has_cycles deps = false ↔ ∃ ord, IsTopoOrder (nodeDepsOf deps) ord) ∧
    (_has_cycles deps = true ↔ HasDirectedCycle (nodeDepsOf deps)) := by
  have hn' : ((nodeDepsOf deps).map Prod.fst).Nodup := by
    rw [map_fst_nodeDepsOf]
    exact hn
  have hiff := toposort_isSome_iff (nodeDepsOf deps) hn'
  have hfalse : _has_cycles deps = false ↔ (toposort (nodeDepsOf deps)).isSome = true := by
    unfold _has_cycles
    cases toposort (nodeDepsOf deps) with
    | none => simp
    | some layers => simp
  constructor
  · exact hfalse.trans hiff
  constructor
  · intro htrue
    apply toposort_none_cycle
    unfold _has_cycles at htrue
    cases hres : toposort (nodeDepsOf deps) with
    | none => rfl
    | some layers => rw [hres] at htrue; simp at htrue
  · rintro ⟨v, hcyc⟩
    by_contra hc
    have hc' : _has_cycles deps = false := by
      cases hv : _has_cycles deps
      · rfl
      · exact absurd hv hc
    rcases (hfalse.trans hiff).1 hc' with ⟨ord, hord⟩
    have hmono : ∀ x y : NodeKey,
        Relation.TransGen (EdgeOf (nodeDepsOf deps)) x y → idxOf ord x < idxOf ord y := by
      intro x y h
      induction h with
      | single he =>
        rcases he with ⟨p, hp, hpy, hd, hne⟩
        rw [← hpy]
        exact (hord.2.2 p hp x hd).resolve_left (by rw [hpy]; exact hne)
      | tail _ he ih =>
        rcases he with ⟨p, hp, hpy, hd, hne⟩
        have hlt := (hord.2.2 p hp _ hd).resolve_left (by rw [hpy]; exact hne)
        rw [← hpy]
        omega
    exact absurd (hmono v v hcyc) (lt_irrefl _)

/-- C2 counterexample: on the single self-edge dict the source reports no
cycle (the toposort library discards self-dependencies), although no valid
topological ordering of the graph with the self-edge counted exists — so
the detector is not "true iff no valid topological ordering exists" as
stated, and a one-node directed cycle yields false, not true. -/
theorem has_cycles_self_loop_counterexample :
    _has_cycles selfLoopDeps = false ∧
      ¬ ∃ ord, IsStrictTopoOrder (nodeDepsOf selfLoopDeps) ord := by
  constructor
  · decide
  · rintro ⟨ord, hord⟩
    have heq : nodeDepsOf selfLoopDeps = [(NodeKey.str "a", [NodeKey.str "a"])] := by decide
    have hmem : (NodeKey.str "a", [NodeKey.str "a"]) ∈ nodeDepsOf selfLoopDeps := by
      rw [heq]
      exact List.mem_cons_self _ _
    have h := hord.2.2 _ hmem (NodeKey.str "a") (List.mem_cons_self _ _)
    exact absurd h (lt_irrefl _)

theorem headD_mem {α : Type} {l : List α} (h : l ≠ []) (x : α) : l.headD x ∈ l := by
  cases l with
  | nil => exact absurd rfl h
  | cons a t => exact List.mem_cons_self a t

/-- C2 witness: a two-unit acyclic dependency dict is reported cycle-free,
through the characterization applied at a concrete input. -/
theorem has_cycles_characterization_witness :
    _has_cycles [(NodeKey.str "a", []), (NodeKey.str "b", [("i", ⟨"a", "o"⟩)])] = false :=
  (has_cycles_characterization
    [(NodeKey.str "a", []), (NodeKey.str "b", [("i", ⟨"a", "o"⟩)])]
    (by decide)).1.2 ⟨[NodeKey.str "a", NodeKey.str "b"], by unfold IsTopoOrder; decide⟩

theorem build_job_partitions_eq (assets : List AssetsDefinition)
    (first : AssetsDefinition) (rest : List AssetsDefinition)
    (hF : assets.filter (fun ad => ad.partitions_def.isSome) = first :: rest) :
    build_job_partitions_from_assets assets =
      match (first :: rest).find?
          (fun ad => decide (ad.partitions_def ≠ first.partitions_def)) with
      | some bad => .error (.partitionMismatch (bad.keys.headD []) (first.keys.headD []))
      | none => .ok first.partitions_def := by
  unfold build_job_partitions_from_assets
  rw [hF]

/-- C5: the Partition Policy Unifier returns no partitioning when no
definition declares a policy, returns the common policy when every declared
policy equals it, and on any two differing declared policies raises a
DefinitionError naming one output key from each of two genuinely
conflicting definitions. -/
theorem build_job_partitions_characterization (assets : List AssetsDefinition)
    (hne : ∀ ad ∈ assets, ad.keys ≠ []) :
    ((∀ ad ∈ assets, ad.partitions_def = none) →
      build_job_partitions_from_assets assets = .ok none) ∧
    (∀ p : Nat, (∃ ad ∈ assets, ad.partitions_def = some p) →
      (∀ ad ∈ assets, ad.partitions_def = none ∨ ad.partitions_def = some p) →
      build_job_partitions_from_assets assets = .ok (some p)) ∧
    ((∃ a ∈ assets, ∃ b ∈ assets, ∃ p q : Nat, a.partitions_def = some p ∧
        b.partitions_def = some q ∧ p ≠ q) →
      ∃ k₁ k₂ a b, build_job_partitions_from_assets assets =
          .error (.partitionMismatch k₁ k₂) ∧
        a ∈ assets ∧ b ∈ assets ∧ k₁ ∈ a.keys ∧ k₂ ∈ b.keys ∧
        a.partitions_def.isSome = true ∧ b.partitions_def.isSome = true ∧
        a.partitions_def ≠ b.partitions_def) := by
  refine ⟨?_, ?_, ?_⟩
  · intro hall
    have hfil : assets.filter (fun ad => ad.partitions_def.isSome) = [] := by
      rw [List.filter_eq_nil_iff]
      intro ad had
      rw [hall ad had]
      simp
    simp [build_job_partitions_from_assets, hfil]
  · intro p hex hall
    rcases hex with ⟨ad, had, hadp⟩
    have hadF : ad ∈ assets.filter (fun a => a.partitions_def.isSome) :=
      List.mem_filter.2 ⟨had, by rw [hadp]; rfl⟩
    cases hF : assets.filter (fun a => a.partitions_def.isSome) with
    | nil =>
      rw [hF] at hadF
      simp at hadF
    | cons first rest =>
      have hmemF : ∀ x ∈ first :: rest, x.partitions_def = some p := by
        intro x hx
        rw [← hF] at hx
        rcases List.mem_filter.1 hx with ⟨hxa, hxs⟩
        rcases hall x hxa with h | h
        · rw [h] at hxs
          simp at hxs
        · exact h
      have hfirst : first.partitions_def = some p := hmemF first (List.mem_cons_self _ _)
      have hfind : (first :: rest).find?
          (fun ad => decide (ad.partitions_def ≠ first.partitions_def)) = none := by
        rw [List.find?_eq_none]
        intro x hx
        rw [hmemF x hx, hfirst]
        simp
      rw [build_job_partitions_eq assets first rest hF, hfind, hfirst]
  · rintro ⟨a, ha, b, hb, p, q, hap, hbq, hpq⟩
    have haF : a ∈ assets.filter (fun x => x.partitions_def.isSome) :=
      List.mem_filter.2 ⟨ha, by rw [hap]; rfl⟩
    have hbF : b ∈ assets.filter (fun x => x.partitions_def.isSome) :=
      List.mem_filter.2 ⟨hb, by rw [hbq]; rfl⟩
    cases hF : assets.filter (fun x => x.partitions_def.isSome) with
    | nil =>
      rw [hF] at haF
      simp at haF
    | cons first rest =>
      have hexF : ∃ x ∈ first :: rest,
          decide (x.partitions_def ≠ first.partitions_def) = true := by
        by_cases hfa : first.partitions_def = a.partitions_def
        · refine ⟨b, by rw [← hF]; exact hbF, ?_⟩
          rw [decide_eq_true_eq, hfa, hap, hbq]
          intro hcon
          injection hcon with hcon
          exact hpq hcon.symm
        · exact ⟨a, by rw [← hF]; exact haF, by
            rw [decide_eq_true_eq]
            intro hcon
            exact hfa hcon.symm⟩
      have hsome : ((first :: rest).find?
          (fun ad => decide (ad.partitions_def ≠ first.partitions_def))).isSome = true :=
        List.find?_isSome.2 hexF
      cases hfind : (first :: rest).find?
          (fun ad => decide (ad.partitions_def ≠ first.partitions_def)) with
      | none =>
        rw [hfind] at hsome
        simp at hsome
      | some bad =>
        have hbadmem : bad ∈ first :: rest := List.mem_of_find?_eq_some hfind
        have hbadmemF : bad ∈ assets.filter (fun x => x.partitions_def.isSome) := by
          rw [hF]
          exact hbadmem
        have hfirstmemF : first ∈ assets.filter (fun x => x.partitions_def.isSome) := by
          rw [hF]
          exact List.mem_cons_self _ _
        have hbadassets := (List.mem_filter.1 hbadmemF).1
        have hfirstassets := (List.mem_filter.1 hfirstmemF).1
        have hbadp : bad.partitions_def ≠ first.partitions_def := by
          have := List.find?_some hfind
          rwa [decide_eq_true_eq] at this
        refine ⟨bad.keys.headD [], first.keys.headD [], bad, first, ?_, hbadassets,
          hfirstassets, headD_mem (hne bad hbadassets) [], headD_mem (hne first hfirstassets) [],
          (List.mem_filter.1 hbadmemF).2, (List.mem_filter.1 hfirstmemF).2, hbadp⟩
        rw [build_job_partitions_eq assets first rest hF, hfind]

/-- C5 witness: the three branches of the characterization at concrete
inputs — all policies absent, a shared declared policy, and two differing
policies. -/
theorem build_job_partitions_characterization_witness :
    build_job_partitions_from_assets [exP, exC] = .ok none ∧
    build_job_partitions_from_assets [{ exP with partitions_def := some 3 }, exC] =
      .ok (some 3) ∧
    (∃ k₁ k₂ a b, build_job_partitions_from_assets
        [{ exP with partitions_def := some 1 }, { exC with partitions_def := some 2 }] =
          .error (.partitionMismatch k₁ k₂) ∧
      a ∈ [{ exP with partitions_def := some 1 }, { exC with partitions_def := some 2 }] ∧
      b ∈ [{ exP with partitions_def := some 1 }, { exC with partitions_def := some 2 }] ∧
      k₁ ∈ a.keys ∧ k₂ ∈ b.keys ∧
      a.partitions_def.isSome = true ∧ b.partitions_def.isSome = true ∧
      a.partitions_def ≠ b.partitions_def) := by
  refine ⟨?_, ?_, ?_⟩
  · exact (build_job_partitions_characterization [exP, exC] (by decide)).1 (by decide)
  · exact (build_job_partitions_characterization
      [{ exP with partitions_def := some 3 }, exC] (by decide)).2.1 3
      ⟨{ exP with partitions_def := some 3 }, by decide, by decide⟩ (by decide)
  · exact (build_job_partitions_characterization
      [{ exP with partitions_def := some 1 }, { exC with partitions_def := some 2 }]
      (by decide)).2.2
      ⟨{ exP with partitions_def := some 1 }, by decide,
        { exC with partitions_def := some 2 }, by decide, 1, 2, rfl, rfl, by decide⟩

/-- C10: the remote pipeline lookup fails the invariant check unless the
resolved location holds exactly one repository, and with exactly one it
returns the external pipeline fetched through a selector carrying exactly
the location name, the repository name, the run's pipeline name and the
run's solid selection, paired with that repository's handle. -/
theorem external_pipeline_characterization {D H : Type} (run : PipelineRun)
    (loc : RepositoryLocation D H) :
    (loc.repositories.length ≠ 1 →
      ∃ msg, external_pipeline_from_run_with_repository_location_handle run loc =
        .error (.invariantViolation msg)) ∧
    (∀ nm repo, loc.repositories = [(nm, repo)] →
      external_pipeline_from_run_with_repository_location_handle run loc =
        .ok ⟨loc.get_subset_external_pipeline_result
              ⟨loc.name, repo.name, run.pipeline_name, run.solid_selection⟩,
            repo.handle⟩) := by
  constructor
  · intro h
    refine ⟨"Reconstructed repository location should have exactly one repository", ?_⟩
    unfold external_pipeline_from_run_with_repository_location_handle
    rw [if_neg h]
  · intro nm repo hrep
    unfold external_pipeline_from_run_with_repository_location_handle
    rw [hrep]
    rfl

/-- C10 witness: a two-repository location fails the invariant, and a
one-repository location returns the handle built from the expected
selector (the lookup is instantiated with the identity, so the selector is
visible in the result). -/
theorem external_pipeline_characterization_witness :
    (∃ msg, external_pipeline_from_run_with_repository_location_handle
        ⟨"pipe", some ["s1", "s2"]⟩
        ({ name := "locA",
           repositories := [("r1", ⟨"r1", 5⟩), ("r2", ⟨"r2", 6⟩)],
           get_subset_external_pipeline_result := fun sel => sel } :
          RepositoryLocation PipelineSelector Nat) =
        .error (.invariantViolation msg)) ∧
    external_pipeline_from_run_with_repository_location_handle
        ⟨"pipe", some ["s1", "s2"]⟩
        ({ name := "locA",
           repositories := [("r1", ⟨"repoName", 5⟩)],
           get_subset_external_pipeline_result := fun sel => sel } :
          RepositoryLocation PipelineSelector Nat) =
      .ok ⟨⟨"locA", "repoName", "pipe", some ["s1", "s2"]⟩, 5⟩ := by
  constructor
  · exact (external_pipeline_characterization _ _).1 (by decide)
  · exact (external_pipeline_characterization _ _).2 "r1" ⟨"repoName", 5⟩ rfl

theorem accum_ok_sound : ∀ (es acc m : List (String × Nat)),
    accumBindings acc es = .ok m →
    (∀ p ∈ es, ∀ q ∈ es, p.1 = q.1 → p.2 = q.2) ∧
    (∀ p ∈ es, ∀ v', dlookup p.1 acc = some v' → p.2 = v') := by
  intro es
  induction es with
  | nil =>
    intro acc m _
    exact ⟨by simp, by simp⟩
  | cons e rest ih =>
    intro acc m hrun
    have hstep : accumBindings acc (e :: rest) =
        (match dlookup e.1 acc with
         | none => accumBindings (dinsert e.1 e.2 acc) rest
         | some v' => if v' = e.2 then accumBindings acc rest
                      else .error (.resourceConflictAssets e.1)) := by
      cases e
      rfl
    rw [hstep] at hrun
    cases hl : dlookup e.1 acc with
    | none =>
      rw [hl] at hrun
      rcases ih (dinsert e.1 e.2 acc) m hrun with ⟨ihpair, ihacc⟩
      have hrest_head : ∀ q ∈ rest, q.1 = e.1 → q.2 = e.2 := by
        intro q hq hqe
        have := ihacc q hq e.2 (by rw [hqe]; exact dlookup_dinsert_self _ _ _)
        exact this
      constructor
      · intro p hp q hq hpq
        rcases List.mem_cons.1 hp with hp' | hp'
        · rcases List.mem_cons.1 hq with hq' | hq'
          · rw [hp', hq']
          · rw [hp']
            exact (hrest_head q hq' (by rw [← hpq, hp'])).symm
        · rcases List.mem_cons.1 hq with hq' | hq'
          · rw [hq']
            exact hrest_head p hp' (by rw [hpq, hq'])
          · exact ihpair p hp' q hq' hpq
      · intro p hp v' hv'
        rcases List.mem_cons.1 hp with hp' | hp'
        · rw [hp'] at hv'
          rw [hl] at hv'
          exact absurd hv' (by simp)
        · by_cases hpk : p.1 = e.1
          · rw [hpk, hl] at hv'
            exact absurd hv' (by simp)
          · refine ihacc p hp' v' ?_
            rw [dlookup_dinsert_ne e.2 acc (fun h => hpk h.symm)]
            exact hv'
    | some v₀ =>
      rw [hl] at hrun
      have hrun2 : (if v₀ = e.2 then accumBindings acc rest
          else Except.error (DefError.resourceConflictAssets e.1)) = Except.ok m := hrun
      by_cases hv : v₀ = e.2
      · rw [if_pos hv] at hrun2
        rcases ih acc m hrun2 with ⟨ihpair, ihacc⟩
        have hrest_head : ∀ q ∈ rest, q.1 = e.1 → q.2 = e.2 := by
          intro q hq hqe
          have := ihacc q hq v₀ (by rw [hqe]; exact hl)
          rw [this, hv]
        constructor
        · intro p hp q hq hpq
          rcases List.mem_cons.1 hp with hp' | hp'
          · rcases List.mem_cons.1 hq with hq' | hq'
            · rw [hp', hq']
            · rw [hp']
              exact (hrest_head q hq' (by rw [← hpq, hp'])).symm
          · rcases List.mem_cons.1 hq with hq' | hq'
            · rw [hq']
              exact hrest_head p hp' (by rw [hpq, hq'])
            · exact ihpair p hp' q hq' hpq
        · intro p hp v' hv'
          rcases List.mem_cons.1 hp with hp' | hp'
          · rw [hp'] at hv'
            rw [hl] at hv'
            injection hv' with hv''
            rw [hp']
            rw [← hv'', hv]
          · exact ihacc p hp' v' hv'
      · rw [if_neg hv] at hrun2
        exact absurd hrun2 (by simp)

theorem accum_ok_complete : ∀ (es acc : List (String × Nat)),
    (∀ p ∈ es, ∀ q ∈ es, p.1 = q.1 → p.2 = q.2) →
    (∀ p ∈ es, ∀ v', dlookup p.1 acc = some v' → p.2 = v') →
    ∃ m, accumBindings acc es = .ok m := by
  intro es
  induction es with
  | nil =>
    intro acc _ _
    exact ⟨acc, rfl⟩
  | cons e rest ih =>
    intro acc hpair hacc
    have hstep : accumBindings acc (e :: rest) =
        (match dlookup e.1 acc with
         | none => accumBindings (dinsert e.1 e.2 acc) rest
         | some v' => if v' = e.2 then accumBindings acc rest
                      else .error (.resourceConflictAssets e.1)) := by
      cases e
      rfl
    rw [hstep]
    cases hl : dlookup e.1 acc with
    | none =>
      apply ih (dinsert e.1 e.2 acc)
      · intro p hp q hq hpq
        exact hpair p (List.mem_cons_of_mem _ hp) q (List.mem_cons_of_mem _ hq) hpq
      · intro p hp v' hv'
        by_cases hpk : p.1 = e.1
        · rw [hpk] at hv'
          rw [dlookup_dinsert_self] at hv'
          injection hv' with hv''
          rw [← hv'']
          exact hpair p (List.mem_cons_of_mem _ hp) e (List.mem_cons_self _ _) hpk
        · rw [dlookup_dinsert_ne e.2 acc (fun h => hpk h.symm)] at hv'
          exact hacc p (List.mem_cons_of_mem _ hp) v' hv'
    | some v₀ =>
      have hv : v₀ = e.2 := (hacc e (List.mem_cons_self _ _) v₀ hl).symm
      show ∃ m, (if v₀ = e.2 then accumBindings acc rest
        else Except.error (DefError.resourceConflictAssets e.1)) = Except.ok m
      rw [if_pos hv]
      apply ih acc
      · intro p hp q hq hpq
        exact hpair p (List.mem_cons_of_mem _ hp) q (List.mem_cons_of_mem _ hq) hpq
      · intro p hp v' hv'
        exact hacc p (List.mem_cons_of_mem _ hp) v' hv'

theorem accum_acc_mono : ∀ (es acc m : List (String × Nat)),
    accumBindings acc es = .ok m →
    ∀ k v', dlookup k acc = some v' → dlookup k m = some v' := by
  intro es
  induction es with
  | nil =>
    intro acc m hrun k v' hv
    have hm : acc = m := by
      have : (Except.ok acc : Except DefError (List (String × Nat))) = .ok m := hrun
      injection this
    rw [← hm]
    exact hv
  | cons e rest ih =>
    intro acc m hrun k v' hv
    have hstep : accumBindings acc (e :: rest) =
        (match dlookup e.1 acc with
         | none => accumBindings (dinsert e.1 e.2 acc) rest
         | some v₀ => if v₀ = e.2 then accumBindings acc rest
                      else .error (.resourceConflictAssets e.1)) := by
      cases e
      rfl
    rw [hstep] at hrun
    cases hl : dlookup e.1 acc with
    | none =>
      rw [hl] at hrun
      have hkne : e.1 ≠ k := by
        intro he
        rw [← he] at hv
        rw [hl] at hv
        exact absurd hv (by simp)
      exact ih _ m hrun k v' (by rw [dlookup_dinsert_ne e.2 acc hkne]; exact hv)
    | some v₀ =>
      rw [hl] at hrun
      have hrun2 : (if v₀ = e.2 then accumBindings acc rest
          else Except.error (DefError.resourceConflictAssets e.1)) = Except.ok m := hrun
      by_cases hveq : v₀ = e.2
      · rw [if_pos hveq] at hrun2
        exact ih acc m hrun2 k v' hv
      · rw [if_neg hveq] at hrun2
        exact absurd hrun2 (by simp)

theorem accum_ok_lookup : ∀ (es acc m : List (String × Nat)),
    accumBindings acc es = .ok m →
    ∀ k v', dlookup k m = some v' → dlookup k acc = some v' ∨ (k, v') ∈ es := by
  intro es
  induction es with
  | nil =>
    intro acc m hrun k v' hv
    have hm : acc = m := by
      have : (Except.ok acc : Except DefError (List (String × Nat))) = .ok m := hrun
      injection this
    rw [hm]
    exact Or.inl hv
  | cons e rest ih =>
    intro acc m hrun k v' hv
    have hstep : accumBindings acc (e :: rest) =
        (match dlookup e.1 acc with
         | none => accumBindings (dinsert e.1 e.2 acc) rest
         | some v₀ => if v₀ = e.2 then accumBindings acc rest
                      else .error (.resourceConflictAssets e.1)) := by
      cases e
      rfl
    rw [hstep] at hrun
    cases hl : dlookup e.1 acc with
    | none =>
      rw [hl] at hrun
      rcases ih _ m hrun k v' hv with h | h
      · by_cases hk : e.1 = k
        · rw [← hk] at h
          rw [dlookup_dinsert_self] at h
          injection h with h'
          refine Or.inr ?_
          rw [← hk, ← h']
          exact List.mem_cons_self _ _
        · rw [dlookup_dinsert_ne e.2 acc hk] at h
          exact Or.inl h
      · exact Or.inr (List.mem_cons_of_mem _ h)
    | some v₀ =>
      rw [hl] at hrun
      have hrun2 : (if v₀ = e.2 then accumBindings acc rest
          else Except.error (DefError.resourceConflictAssets e.1)) = Except.ok m := hrun
      by_cases hveq : v₀ = e.2
      · rw [if_pos hveq] at hrun2
        rcases ih acc m hrun2 k v' hv with h | h
        · exact Or.inl h
        · exact Or.inr (List.mem_cons_of_mem _ h)
      · rw [if_neg hveq] at hrun2
        exact absurd hrun2 (by simp)

theorem accum_lookup_of_mem : ∀ (es acc m : List (String × Nat)),
    accumBindings acc es = .ok m →
    ∀ p ∈ es, ∃ v', dlookup p.1 m = some v' := by
  intro es
  induction es with
  | nil =>
    intro acc m _ p hp
    simp at hp
  | cons e rest ih =>
    intro acc m hrun p hp
    have hstep : accumBindings acc (e :: rest) =
        (match dlookup e.1 acc with
         | none => accumBindings (dinsert e.1 e.2 acc) rest
         | some v₀ => if v₀ = e.2 then accumBindings acc rest
                      else .error (.resourceConflictAssets e.1)) := by
      cases e
      rfl
    rw [hstep] at hrun
    cases hl : dlookup e.1 acc with
    | none =>
      rw [hl] at hrun
      rcases List.mem_cons.1 hp with hp' | hp'
      · refine ⟨e.2, ?_⟩
        rw [hp']
        exact accum_acc_mono rest _ m hrun e.1 e.2 (dlookup_dinsert_self _ _ _)
      · exact ih _ m hrun p hp'
    | some v₀ =>
      rw [hl] at hrun
      have hrun2 : (if v₀ = e.2 then accumBindings acc rest
          else Except.error (DefError.resourceConflictAssets e.1)) = Except.ok m := hrun
      by_cases hveq : v₀ = e.2
      · rw [if_pos hveq] at hrun2
        rcases List.mem_cons.1 hp with hp' | hp'
        · refine ⟨v₀, ?_⟩
          rw [hp']
          exact accum_acc_mono rest acc m hrun2 e.1 v₀ hl
        · exact ih acc m hrun2 p hp'
      · rw [if_neg hveq] at hrun2
        exact absurd hrun2 (by simp)

theorem ensure_eq_of_accum_ok (assets : List AssetsDefinition) (sources : List SourceAsset)
    (resource_defs : List (String × Nat)) (m : List (String × Nat))
    (hm : accumBindings [] (allEntityBindings assets sources) = .ok m) :
    _ensure_resources_dont_conflict assets sources resource_defs =
      (match resource_defs.find? (fun p =>
          decide (p.1 ≠ "io_manager") &&
            (match dlookup p.1 m with
             | some v' => decide (v' ≠ p.2)
             | none => false)) with
       | some p => .error (.resourceConflictJob p.1)
       | none => .ok ()) := by
  unfold _ensure_resources_dont_conflict
  rw [hm]

/-- C6: the Resource Conformance Checker fails whenever two entity bindings
give one resource key non-identical objects; it succeeds when entity
bindings are conflict-free and no non-io_manager job-level binding
conflicts with an entity binding (in particular a conflicting io_manager
job binding is exempt); and it fails when a non-io_manager job-level
binding conflicts with an entity binding. -/
theorem ensure_resources_dont_conflict_characterization
    (assets : List AssetsDefinition) (sources : List SourceAsset)
    (resource_defs : List (String × Nat)) :
    ((∃ p ∈ allEntityBindings assets sources, ∃ q ∈ allEntityBindings assets sources,
        p.1 = q.1 ∧ p.2 ≠ q.2) →
      ∃ e, _ensure_resources_dont_conflict assets sources resource_defs = .error e) ∧
    (ConsistentBindings (allEntityBindings assets sources) →
      (∀ p ∈ resource_defs, p.1 ≠ "io_manager" →
        ∀ q ∈ allEntityBindings assets sources, p.1 = q.1 → p.2 = q.2) →
      _ensure_resources_dont_conflict assets sources resource_defs = .ok ()) ∧
    (ConsistentBindings (allEntityBindings assets sources) →
      (∃ p ∈ resource_defs, p.1 ≠ "io_manager" ∧
        ∃ q ∈ allEntityBindings assets sources, p.1 = q.1 ∧ p.2 ≠ q.2) →
      ∃ e, _ensure_resources_dont_conflict assets sources resource_defs = .error e) := by
  refine ⟨?_, ?_, ?_⟩
  · rintro ⟨p, hp, q, hq, hk, hv⟩
    cases hrun : _ensure_resources_dont_conflict assets sources resource_defs with
    | error e => exact ⟨e, rfl⟩
    | ok u =>
      exfalso
      unfold _ensure_resources_dont_conflict at hrun
      cases haccum : accumBindings [] (allEntityBindings assets sources) with
      | error e =>
        rw [haccum] at hrun
        have hrun2 : (Except.error e : Except DefError Unit) = .ok u := hrun
        exact absurd hrun2 (by simp)
      | ok m =>
        have hcons := (accum_ok_sound _ _ _ haccum).1
        exact hv (hcons p hp q hq hk)
  · intro hcons hjob
    rcases accum_ok_complete (allEntityBindings assets sources) [] hcons
      (by intro p _ v' hv'; simp [dlookup] at hv') with ⟨m, hm⟩
    rw [ensure_eq_of_accum_ok assets sources resource_defs m hm]
    have hfind : resource_defs.find? (fun p =>
        decide (p.1 ≠ "io_manager") &&
          (match dlookup p.1 m with
           | some v' => decide (v' ≠ p.2)
           | none => false)) = none := by
      rw [List.find?_eq_none]
      intro x hx hcontra
      rw [Bool.and_eq_true] at hcontra
      rcases hcontra with ⟨h1, h2⟩
      rw [decide_eq_true_eq] at h1
      cases hl : dlookup x.1 m with
      | none =>
        rw [hl] at h2
        simp at h2
      | some v' =>
        rw [hl] at h2
        rw [decide_eq_true_eq] at h2
        rcases accum_ok_lookup _ _ _ hm x.1 v' hl with h | h
        · simp [dlookup] at h
        · exact h2 ((hjob x hx h1 (x.1, v') h rfl).symm)
    rw [hfind]
  · intro hcons hex
    rcases hex with ⟨p, hp, hpio, q, hq, hk, hv⟩
    rcases accum_ok_complete (allEntityBindings assets sources) [] hcons
      (by intro r _ v' hv'; simp [dlookup] at hv') with ⟨m, hm⟩
    have hlook : ∃ v', dlookup p.1 m = some v' := by
      rcases accum_lookup_of_mem _ _ _ hm q hq with ⟨v', hv'⟩
      exact ⟨v', by rw [hk]; exact hv'⟩
    rcases hlook with ⟨v', hv'⟩
    have hvfirst : (p.1, v') ∈ allEntityBindings assets sources := by
      rcases accum_ok_lookup _ _ _ hm p.1 v' hv' with h | h
      · simp [dlookup] at h
      · exact h
    have hvq : v' = q.2 := by
      have := hcons (p.1, v') hvfirst q hq hk
      exact this
    have hpred : (fun r : String × Nat =>
        decide (r.1 ≠ "io_manager") &&
          (match dlookup r.1 m with
           | some v'' => decide (v'' ≠ r.2)
           | none => false)) p = true := by
      rw [Bool.and_eq_true]
      constructor
      · rw [decide_eq_true_eq]
        exact hpio
      · rw [hv']
        rw [decide_eq_true_eq]
        rw [hvq]
        intro hcontra
        exact hv hcontra.symm
    have hsome : (resource_defs.find? (fun r : String × Nat =>
        decide (r.1 ≠ "io_manager") &&
          (match dlookup r.1 m with
           | some v'' => decide (v'' ≠ r.2)
           | none => false))).isSome = true :=
      List.find?_isSome.2 ⟨p, hp, hpred⟩
    cases hfind : resource_defs.find? (fun r : String × Nat =>
        decide (r.1 ≠ "io_manager") &&
          (match dlookup r.1 m with
           | some v'' => decide (v'' ≠ r.2)
           | none => false)) with
    | none =>
      rw [hfind] at hsome
      simp at hsome
    | some bad =>
      refine ⟨.resourceConflictJob bad.1, ?_⟩
      rw [ensure_eq_of_accum_ok assets sources resource_defs m hm, hfind]

/-- C6 witness: two definitions binding db to distinct objects fail; one
definition binding io_manager and db succeeds even though the job table
binds io_manager to a different object; a job-level db binding conflicting
with the definition's fails. -/
theorem ensure_resources_dont_conflict_witness :
    (∃ e, _ensure_resources_dont_conflict [adW, adV] [] [] = .error e) ∧
    _ensure_resources_dont_conflict [adW] []
      (jobLevelResourceDefs [("io_manager", 9), ("extra", 4)]) = .ok () ∧
    (∃ e, _ensure_resources_dont_conflict [adW] [] [("db", 9)] = .error e) := by
  refine ⟨?_, ?_, ?_⟩
  · exact (ensure_resources_dont_conflict_characterization [adW, adV] [] []).1
      ⟨("db", 3), by decide, ("db", 5), by decide, rfl, by decide⟩
  · exact (ensure_resources_dont_conflict_characterization [adW] [] _).2.1
      (by unfold ConsistentBindings; decide) (by decide)
  · exact (ensure_resources_dont_conflict_characterization [adW] [] [("db", 9)]).2.2
      (by unfold ConsistentBindings; decide)
      ⟨("db", 9), by decide, by decide, ("db", 3), by decide, rfl, by decide⟩

theorem lookup_dinsertAll_of_mem {init es : List (String × Nat)} {k : String} {v : Nat}
    (hcons : ConsistentBindings es) (hmem : (k, v) ∈ es) :
    dlookup k (dinsertAll init es) = some v := by
  rw [dlookup_dinsertAll]
  rcases dlookup_isSome_of_mem (List.mem_reverse.2 hmem) with ⟨v', hv'⟩
  rw [hv']
  have hrev : (k, v') ∈ es := List.mem_reverse.1 (dlookup_mem hv')
  have hveq : v' = v := hcons (k, v') hrev (k, v) hmem rfl
  rw [hveq]
  rfl

theorem lookup_io_manager_jobLevel (resource_defs : List (String × Nat)) :
    (dlookup "io_manager" (jobLevelResourceDefs resource_defs)).isSome = true := by
  unfold jobLevelResourceDefs merge_dicts
  rw [dlookup_dinsertAll]
  cases dlookup "io_manager" resource_defs.reverse with
  | none => rfl
  | some v => rfl

/-- C9: when the compile succeeds, the merged resource table gives
precedence to entity-supplied bindings — every resource key bound by some
assets definition or source asset maps to that entity's object in the
final table — and the table (like the job-level table it starts from, which
always carries an io_manager entry) binds io_manager. -/
theorem get_all_resource_defs_precedence (assets : List AssetsDefinition)
    (sources : List SourceAsset) (resource_defs : List (String × Nat))
    (table : List (String × Nat))
    (hok : get_all_resource_defs assets sources (jobLevelResourceDefs resource_defs) =
      .ok table) :
    (∀ ad ∈ assets, ∀ p ∈ ad.resource_defs, dlookup p.1 table = some p.2) ∧
    (∀ sa ∈ sources, ∀ p ∈ sa.resource_defs, dlookup p.1 table = some p.2) ∧
    (dlookup "io_manager" table).isSome = true ∧
    (dlookup "io_manager" (jobLevelResourceDefs resource_defs)).isSome = true := by
  cases hcheck : check_resources_satisfy_requirements assets sources
      (jobLevelResourceDefs resource_defs) with
  | error e =>
    exfalso
    unfold get_all_resource_defs at hok
    rw [hcheck] at hok
    have hok2 : (Except.error e : Except DefError (List (String × Nat))) = .ok table := hok
    exact absurd hok2 (by simp)
  | ok u =>
    have htable : table = dinsertAll (jobLevelResourceDefs resource_defs)
        (allEntityBindings assets sources) := by
      unfold get_all_resource_defs at hok
      rw [hcheck] at hok
      have hok2 : (Except.ok (dinsertAll (jobLevelResourceDefs resource_defs)
          (allEntityBindings assets sources)) :
        Except DefError (List (String × Nat))) = .ok table := hok
      injection hok2 with h
      exact h.symm
    have hcons : ConsistentBindings (allEntityBindings assets sources) := by
      unfold check_resources_satisfy_requirements at hcheck
      cases hens : _ensure_resources_dont_conflict assets sources
          (jobLevelResourceDefs resource_defs) with
      | error e =>
        exfalso
        rw [hens] at hcheck
        have h2 : (Except.error e : Except DefError Unit) = .ok u := hcheck
        exact absurd h2 (by simp)
      | ok u2 =>
        unfold _ensure_resources_dont_conflict at hens
        cases haccum : accumBindings [] (allEntityBindings assets sources) with
        | error e =>
          exfalso
          rw [haccum] at hens
          have h2 : (Except.error e : Except DefError Unit) = .ok u2 := hens
          exact absurd h2 (by simp)
        | ok m =>
          exact (accum_ok_sound _ _ _ haccum).1
    refine ⟨?_, ?_, ?_, lookup_io_manager_jobLevel resource_defs⟩
    · intro ad had p hp
      have hmem : p ∈ allEntityBindings assets sources := by
        unfold allEntityBindings
        refine List.mem_append_left _ ?_
        exact List.mem_flatten.2 ⟨ad.resource_defs,
          List.mem_map_of_mem (fun a => a.resource_defs) had, hp⟩
      rw [htable]
      exact lookup_dinsertAll_of_mem hcons hmem
    · intro sa hsa p hp
      have hmem : p ∈ allEntityBindings assets sources := by
        unfold allEntityBindings
        refine List.mem_append_right _ ?_
        exact List.mem_flatten.2 ⟨sa.resource_defs,
          List.mem_map_of_mem (fun a => a.resource_defs) hsa, hp⟩
      rw [htable]
      exact lookup_dinsertAll_of_mem hcons hmem
    · rw [htable]
      unfold dinsertAll
      rw [show (allEntityBindings assets sources).foldl
          (fun t p => dinsert p.1 p.2 t) (jobLevelResourceDefs resource_defs) =
          dinsertAll (jobLevelResourceDefs resource_defs)
            (allEntityBindings assets sources) from rfl]
      rw [dlookup_dinsertAll]
      cases dlookup "io_manager" (allEntityBindings assets sources).reverse with
      | none =>
        have hio := lookup_io_manager_jobLevel resource_defs
        cases hv : dlookup "io_manager" (jobLevelResourceDefs resource_defs) with
        | none => rw [hv] at hio; simp at hio
        | some v => rfl
      | some v => rfl

/-- C9 witness: with one definition binding io_manager and db itself and a
job table overriding io_manager, the compile succeeds and the final table
carries the definition's objects for both keys. -/
theorem get_all_resource_defs_precedence_witness :
    dlookup "io_manager" [("io_manager", 7), ("extra", 4), ("db", 3)] = some 7 ∧
    dlookup "db" [("io_manager", 7), ("extra", 4), ("db", 3)] = some 3 := by
  have hok : get_all_resource_defs [adW] []
      (jobLevelResourceDefs [("io_manager", 9), ("extra", 4)]) =
      .ok [("io_manager", 7), ("extra", 4), ("db", 3)] := by rfl
  have h := get_all_resource_defs_precedence [adW] [] [("io_manager", 9), ("extra", 4)]
    [("io_manager", 7), ("extra", 4), ("db", 3)] hok
  exact ⟨h.1 adW (by decide) ("io_manager", 7) (by decide),
    h.1 adW (by decide) ("db", 3) (by decide)⟩

theorem aliasFor_zero (b : String) : aliasFor b 0 = b := rfl

theorem aliasFor_data_succ (b : String) (k : Nat) (hk : k ≠ 0) :
    (aliasFor b k).data = b.data ++ '_' :: (natStr (k + 1)).data := by
  unfold aliasFor
  rw [if_neg hk]
  rw [String.data_append, String.data_append]
  have hus : ("_" : String).data = ['_'] := by decide
  rw [hus, List.append_assoc]
  rfl

theorem assignAliases_cons (ad : AssetsDefinition) (rest : List AssetsDefinition)
    (cols : List (String × Nat)) :
    assignAliases (ad :: rest) cols =
      match dlookup ad.node_name cols with
      | some n => (ad.node_name ++ "_" ++ natStr (n + 1), ad) ::
          assignAliases rest (dinsert ad.node_name (n + 1) cols)
      | none => (ad.node_name, ad) :: assignAliases rest (dinsert ad.node_name 1 cols) := rfl

theorem assignAliases_eq_spec : ∀ (l : List AssetsDefinition) (cols : List (String × Nat)),
    (∀ b n, dlookup b cols = some n → n ≠ 0) →
    (assignAliases l cols).map Prod.fst =
      specUnitIdentifiers (fun b => (dlookup b cols).getD 0) l ∧
    (assignAliases l cols).map Prod.snd = l := by
  intro l
  induction l with
  | nil => intro cols _; exact ⟨rfl, rfl⟩
  | cons ad rest ih =>
    intro cols hcols
    have hspec : specUnitIdentifiers (fun b => (dlookup b cols).getD 0) (ad :: rest) =
        aliasFor ad.node_name ((dlookup ad.node_name cols).getD 0) ::
          specUnitIdentifiers (fun b => if b = ad.node_name
            then (dlookup b cols).getD 0 + 1 else (dlookup b cols).getD 0) rest := rfl
    cases hl : dlookup ad.node_name cols with
    | none =>
      have hstep : assignAliases (ad :: rest) cols =
          (ad.node_name, ad) :: assignAliases rest (dinsert ad.node_name 1 cols) := by
        rw [assignAliases_cons, hl]
      have hcols' : ∀ b n, dlookup b (dinsert ad.node_name 1 cols) = some n → n ≠ 0 := by
        intro b n hb
        by_cases hbe : b = ad.node_name
        · rw [hbe, dlookup_dinsert_self] at hb
          injection hb with hb'
          omega
        · rw [dlookup_dinsert_ne _ _ (fun h => hbe h.symm)] at hb
          exact hcols b n hb
      rcases ih (dinsert ad.node_name 1 cols) hcols' with ⟨ih1, ih2⟩
      rw [hstep, hspec]
      constructor
      · simp only [List.map_cons]
        congr 1
        · rw [hl]
          rfl
        · rw [ih1]
          congr 1
          funext b
          by_cases hbe : b = ad.node_name
          · rw [hbe, dlookup_dinsert_self, hl, if_pos rfl]
            rfl
          · rw [dlookup_dinsert_ne _ _ (fun h => hbe h.symm), if_neg hbe]
      · simp only [List.map_cons, ih2]
    | some n =>
      have hstep : assignAliases (ad :: rest) cols =
          (ad.node_name ++ "_" ++ natStr (n + 1), ad) ::
            assignAliases rest (dinsert ad.node_name (n + 1) cols) := by
        rw [assignAliases_cons, hl]
      have hcols' : ∀ b m, dlookup b (dinsert ad.node_name (n + 1) cols) = some m → m ≠ 0 := by
        intro b m hb
        by_cases hbe : b = ad.node_name
        · rw [hbe, dlookup_dinsert_self] at hb
          injection hb with hb'
          omega
        · rw [dlookup_dinsert_ne _ _ (fun h => hbe h.symm)] at hb
          exact hcols b m hb
      rcases ih (dinsert ad.node_name (n + 1) cols) hcols' with ⟨ih1, ih2⟩
      rw [hstep, hspec]
      constructor
      · simp only [List.map_cons]
        congr 1
        · rw [hl]
          have hn0 : n ≠ 0 := hcols ad.node_name n hl
          rw [show (some n).getD 0 = n from rfl]
          unfold aliasFor
          rw [if_neg hn0]
        · rw [ih1]
          congr 1
          funext b
          by_cases hbe : b = ad.node_name
          · rw [hbe, dlookup_dinsert_self, hl, if_pos rfl]
            rfl
          · rw [dlookup_dinsert_ne _ _ (fun h => hbe h.symm), if_neg hbe]
      · simp only [List.map_cons, ih2]

theorem mem_specUnitIdentifiers : ∀ (l : List AssetsDefinition) (c : String → Nat)
    (x : String), x ∈ specUnitIdentifiers c l →
    ∃ ad ∈ l, ∃ k, c ad.node_name ≤ k ∧ x = aliasFor ad.node_name k := by
  intro l
  induction l with
  | nil =>
    intro c x hx
    simp [specUnitIdentifiers] at hx
  | cons ad rest ih =>
    intro c x hx
    rcases List.mem_cons.1 hx with hx' | hx'
    · exact ⟨ad, List.mem_cons_self _ _, c ad.node_name, Nat.le_refl _, hx'⟩
    · rcases ih _ x hx' with ⟨ad', hmem', k, hk, hxa⟩
      refine ⟨ad', List.mem_cons_of_mem _ hmem', k, ?_, hxa⟩
      by_cases hbe : ad'.node_name = ad.node_name
      · rw [if_pos hbe] at hk
        omega
      · rw [if_neg hbe] at hk
        exact hk

theorem append_underscore_cases : ∀ (x y s t : List Char),
    x ++ '_' :: s = y ++ '_' :: t →
    (x = y ∧ s = t) ∨ ((x ++ ['_']) <+: y) ∨ ((y ++ ['_']) <+: x) := by
  intro x
  induction x with
  | nil =>
    intro y s t h
    cases y with
    | nil =>
      left
      refine ⟨rfl, ?_⟩
      injection h
    | cons c ys =>
      injection h with h1 h2
      right; left
      refine ⟨ys, ?_⟩
      rw [← h1]
      rfl
  | cons a xs ih =>
    intro y s t h
    cases y with
    | nil =>
      injection h with h1 h2
      right; right
      refine ⟨xs, ?_⟩
      rw [h1]
      rfl
    | cons b ys =>
      injection h with h1 h2
      rcases ih ys s t h2 with ⟨hxy, hst⟩ | hp | hp
      · left
        exact ⟨by rw [h1, hxy], hst⟩
      · right; left
        rcases hp with ⟨r, hr⟩
        exact ⟨r, by rw [List.cons_append, List.cons_append, hr, h1]⟩
      · right; right
        rcases hp with ⟨r, hr⟩
        exact ⟨r, by rw [List.cons_append, List.cons_append, hr, h1]⟩

theorem aliasFor_inj_same (b : String) (j k : Nat) (h : aliasFor b j = aliasFor b k) :
    j = k := by
  by_cases hj : j = 0 <;> by_cases hk : k = 0
  · rw [hj, hk]
  · exfalso
    subst hj
    have hd := congrArg String.data h
    rw [aliasFor_zero, aliasFor_data_succ b k hk] at hd
    have hlen := congrArg List.length hd
    simp [List.length_append] at hlen
  · exfalso
    subst hk
    have hd := congrArg String.data h
    rw [aliasFor_zero, aliasFor_data_succ b j hj] at hd
    have hlen := congrArg List.length hd
    simp [List.length_append] at hlen
  · have hd := congrArg String.data h
    rw [aliasFor_data_succ b j hj, aliasFor_data_succ b k hk] at hd
    have h2 := List.append_cancel_left hd
    injection h2 with _ h3
    have h4 : natStr (j + 1) = natStr (k + 1) := String.ext h3
    have h5 := natStr_inj h4
    omega

theorem aliasFor_inj_cross (b b' : String) (j k : Nat) (hne : b ≠ b')
    (h1 : ¬ (b.data ++ ['_']) <+: b'.data) (h2 : ¬ (b'.data ++ ['_']) <+: b.data) :
    aliasFor b j ≠ aliasFor b' k := by
  intro h
  have hd := congrArg String.data h
  by_cases hj : j = 0 <;> by_cases hk : k = 0
  · subst hj; subst hk
    rw [aliasFor_zero, aliasFor_zero] at h
    exact hne h
  · subst hj
    rw [aliasFor_zero, aliasFor_data_succ b' k hk] at hd
    apply h2
    refine ⟨(natStr (k + 1)).data, ?_⟩
    rw [List.append_assoc]
    rw [show (['_'] ++ (natStr (k + 1)).data) = '_' :: (natStr (k + 1)).data from rfl]
    exact hd.symm
  · subst hk
    rw [aliasFor_zero, aliasFor_data_succ b j hj] at hd
    apply h1
    refine ⟨(natStr (j + 1)).data, ?_⟩
    rw [List.append_assoc]
    rw [show (['_'] ++ (natStr (j + 1)).data) = '_' :: (natStr (j + 1)).data from rfl]
    exact hd
  · rw [aliasFor_data_succ b j hj, aliasFor_data_succ b' k hk] at hd
    rcases append_underscore_cases _ _ _ _ hd with ⟨hxy, _⟩ | hp | hp
    · exact hne (String.ext hxy)
    · exact h1 hp
    · exact h2 hp

theorem specUnitIdentifiers_nodup : ∀ (l : List AssetsDefinition) (c : String → Nat),
    UnderscoreFree (l.map (fun ad => ad.node_name)) →
    (specUnitIdentifiers c l).Nodup := by
  intro l
  induction l with
  | nil => intro c _; simp [specUnitIdentifiers]
  | cons ad rest ih =>
    intro c huf
    have hufr : UnderscoreFree (rest.map (fun a => a.node_name)) := by
      intro b hb b' hb'
      exact huf b (List.mem_cons_of_mem _ hb) b' (List.mem_cons_of_mem _ hb')
    refine List.nodup_cons.2 ⟨?_, ih _ hufr⟩
    intro hmem
    rcases mem_specUnitIdentifiers rest _ _ hmem with ⟨ad', hmem', k, hk, hxa⟩
    by_cases hbe : ad'.node_name = ad.node_name
    · rw [hbe] at hxa hk
      rw [if_pos rfl] at hk
      have := aliasFor_inj_same ad.node_name _ _ hxa
      omega
    · have hadm : ad.node_name ∈ (ad :: rest).map (fun a => a.node_name) := by
        simp
      have hadm' : ad'.node_name ∈ (ad :: rest).map (fun a => a.node_name) := by
        refine List.mem_cons_of_mem _ ?_
        exact List.mem_map_of_mem _ hmem'
      exact aliasFor_inj_cross ad.node_name ad'.node_name (c ad.node_name) k
        (fun h => hbe h.symm) (huf _ hadm _ hadm') (huf _ hadm' _ hadm) hxa

/-- C4 (amended): the definitions are sorted by their sorted output-key
sets, the first definition with a given base name keeps that name and each
later one with the same base name receives the suffixes for 2, 3, ... in
that sorted order; and the assigned unit identifiers are pairwise distinct
provided no base name extends another base name of the set by an
underscore (without that proviso a base name such as x_2 can collide with
a generated alias). -/
theorem build_node_deps_unit_identifiers (assets : List AssetsDefinition)
    (huf : UnderscoreFree (assets.map (fun ad => ad.node_name))) :
    (sortDefs assets).Sorted adLe ∧ (sortDefs assets).Perm assets ∧
    (assignAliases (sortDefs assets) []).map Prod.fst =
      specUnitIdentifiers (fun _ => 0) (sortDefs assets) ∧
    ((assignAliases (sortDefs assets) []).map Prod.fst).Nodup := by
  have hufs : UnderscoreFree ((sortDefs assets).map (fun ad => ad.node_name)) := by
    intro b hb b' hb'
    rcases List.mem_map.1 hb with ⟨ad, had, hbe⟩
    rcases List.mem_map.1 hb' with ⟨ad', had', hbe'⟩
    refine huf b ?_ b' ?_
    · rw [← hbe]
      exact List.mem_map_of_mem _ ((sortDefs_perm assets).mem_iff.1 had)
    · rw [← hbe']
      exact List.mem_map_of_mem _ ((sortDefs_perm assets).mem_iff.1 had')
  have hspec := assignAliases_eq_spec (sortDefs assets) []
    (by intro b n h; simp [dlookup] at h)
  have hc : (fun b => (dlookup b ([] : List (String × Nat))).getD 0) =
      (fun _ : String => 0) := funext (fun b => rfl)
  refine ⟨sortDefs_sorted assets, sortDefs_perm assets, ?_, ?_⟩
  · rw [hspec.1, hc]
  · rw [hspec.1, hc]
    exact specUnitIdentifiers_nodup (sortDefs assets) _ hufs

/-- C4 witness: three definitions with base names x, x, y produce the
distinct identifiers x, x_2, y, through the theorem at a concrete input. -/
theorem build_node_deps_unit_identifiers_witness :
    ((assignAliases (sortDefs [exS, exT, mkAD "y" "o" ["d"]]) []).map Prod.fst).Nodup :=
  (build_node_deps_unit_identifiers [exS, exT, mkAD "y" "o" ["d"]]
    (by unfold UnderscoreFree; decide)).2.2.2

/-- C4 counterexample: with base names x, x and x_2, the definition whose
base name is x_2 sorts first and keeps its name, and the second definition
named x then receives the generated alias x_2 — the assigned unit
identifiers are not pairwise distinct, contradicting the claim as stated. -/
theorem unit_identifiers_counterexample :
    (assignAliases (sortDefs [exS, exT, exR]) []).map Prod.fst = ["x_2", "x", "x_2"] ∧
    ¬ ((assignAliases (sortDefs [exS, exT, exR]) []).map Prod.fst).Nodup := by
  constructor
  · decide
  · decide

/-- C8: the compile is a deterministic function of the input set — two
invocations on inputs that are equal up to ordering produce identical unit
identifiers, dependency dicts and input-handle maps, provided the sort keys
(the sorted output-key sets) are pairwise distinct so that the
output-key-sorted order is uniquely determined. -/
theorem build_node_deps_deterministic (assets₁ assets₂ : List AssetsDefinition)
    (sources : List SourceAsset) (hperm : assets₁.Perm assets₂)
    (hinj : (assets₁.map sortKey).Nodup) :
    build_node_deps assets₁ sources = build_node_deps assets₂ sources := by
  have hsort : sortDefs assets₁ = sortDefs assets₂ := sortDefs_congr_of_perm hperm hinj
  unfold build_node_deps
  rw [hsort]

/-- C8 witness: the two orderings of the cross-cycle pair compile to the
same result. -/
theorem build_node_deps_deterministic_witness :
    build_node_deps [exA, exB] [] = build_node_deps [exB, exA] [] :=
  build_node_deps_deterministic [exA, exB] [exB, exA] [] (by decide) (by decide)

theorem table_lookup_iff (assets : List AssetsDefinition) (sources : List SourceAsset)
    (hns : NoShadowing assets sources) (gn : String × String) (k : AssetKey) :
    dlookup gn (buildGroupNameTable assets sources) = some k ↔
      (gn, k) ∈ tableEntries assets sources := by
  unfold buildGroupNameTable
  rw [dlookup_dinsertAll]
  constructor
  · intro h
    cases hr : dlookup gn (tableEntries assets sources).reverse with
    | none =>
      rw [hr] at h
      exact absurd h (by simp [dlookup])
    | some v =>
      rw [hr] at h
      injection h with hv
      rw [← hv]
      exact List.mem_reverse.1 (dlookup_mem hr)
  · intro h
    rcases dlookup_isSome_of_mem (List.mem_reverse.2 h) with ⟨v, hv⟩
    rw [hv]
    have hmem : (gn, v) ∈ tableEntries assets sources := List.mem_reverse.1 (dlookup_mem hv)
    have hveq : v = k := hns (gn, v) hmem (gn, k) h rfl
    rw [hveq]
    rfl

theorem table_values_iff (assets : List AssetsDefinition) (sources : List SourceAsset)
    (hns : NoShadowing assets sources) (k : AssetKey) :
    k ∈ (buildGroupNameTable assets sources).map Prod.snd ↔
      k ∈ allProducedKeys assets sources := by
  constructor
  · intro h
    rcases List.mem_map.1 h with ⟨p, hp, hpe⟩
    rcases mem_dinsertAll hp with h' | h'
    · simp at h'
    · rw [← hpe]
      exact List.mem_map_of_mem Prod.snd h'
  · intro h
    rcases List.mem_map.1 h with ⟨p, hp, hpe⟩
    have hp' : (p.1, p.2) ∈ tableEntries assets sources := hp
    have hl : dlookup p.1 (buildGroupNameTable assets sources) = some p.2 :=
      (table_lookup_iff assets sources hns p.1 p.2).2 hp'
    rw [← hpe]
    exact List.mem_map_of_mem Prod.snd (dlookup_mem hl)

theorem resolveInput_err_inv (table : List ((String × String) × AssetKey))
    (group : Option String) (fk ukey : AssetKey) (e : DefError)
    (h : resolveInput table group fk ukey = .error e) :
    ukey ∉ table.map Prod.snd ∧
    (∀ g, group = some g → dlookup (g, lastSeg ukey) table = none) ∧
    e = .unresolvedInput ukey fk := by
  unfold resolveInput at h
  by_cases hmem : ukey ∈ table.map Prod.snd
  · rw [if_pos hmem] at h
    exact absurd h (by simp)
  · rw [if_neg hmem] at h
    cases hg : group with
    | none =>
      rw [hg] at h
      refine ⟨hmem, by intro g hcontra; exact absurd hcontra (by simp), ?_⟩
      injection h with h'
      exact h'.symm
    | some g =>
      rw [hg] at h
      have h2 : (match dlookup (g, lastSeg ukey) table with
          | some k => (Except.ok k : Except DefError AssetKey)
          | none => Except.error (DefError.unresolvedInput ukey fk)) = Except.error e := h
      cases hl : dlookup (g, lastSeg ukey) table with
      | none =>
        rw [hl] at h2
        refine ⟨hmem, ?_, ?_⟩
        · intro g' hg'
          injection hg' with hg''
          rw [← hg'']
          exact hl
        · injection h2 with h'
          exact h'.symm
      | some kk =>
        rw [hl] at h2
        exact absurd h2 (by simp)

theorem resolveInput_err_of_unresolvable (table : List ((String × String) × AssetKey))
    (group : Option String) (fk ukey : AssetKey)
    (hmem : ukey ∉ table.map Prod.snd)
    (hg : ∀ g, group = some g → dlookup (g, lastSeg ukey) table = none) :
    resolveInput table group fk ukey = .error (.unresolvedInput ukey fk) := by
  unfold resolveInput
  rw [if_neg hmem]
  cases hgv : group with
  | none => rfl
  | some g =>
    show (match dlookup (g, lastSeg ukey) table with
        | some k => (Except.ok k : Except DefError AssetKey)
        | none => Except.error (DefError.unresolvedInput ukey fk)) =
      Except.error (DefError.unresolvedInput ukey fk)
    rw [hg g hgv]

theorem resolveOne_ok_names (table : List ((String × String) × AssetKey))
    (ad : AssetsDefinition) :
    ∀ (ins : List (String × AssetKey)) (m : List (String × AssetKey)),
      resolveOne table ad ins = .ok m → m.map Prod.fst = ins.map Prod.fst := by
  intro ins
  induction ins with
  | nil =>
    intro m h
    have h2 : (Except.ok [] : Except DefError (List (String × AssetKey))) = .ok m := h
    injection h2 with h3
    rw [← h3]
  | cons p rest ih =>
    intro m h
    have hstep : resolveOne table ad (p :: rest) =
        (match resolveInput table (fallbackGroup ad) (ad.keys.headD []) p.2 with
         | .error e => .error e
         | .ok k =>
           match resolveOne table ad rest with
           | .error e => .error e
           | .ok r => .ok ((p.1, k) :: r)) := by
      cases p
      rfl
    rw [hstep] at h
    cases hri : resolveInput table (fallbackGroup ad) (ad.keys.headD []) p.2 with
    | error e =>
      rw [hri] at h
      exact absurd h (by simp)
    | ok k =>
      rw [hri] at h
      cases hrest : resolveOne table ad rest with
      | error e =>
        rw [hrest] at h
        exact absurd h (by simp)
      | ok r =>
        rw [hrest] at h
        have h2 : (Except.ok ((p.1, k) :: r) :
            Except DefError (List (String × AssetKey))) = .ok m := h
        injection h2 with h3
        rw [← h3]
        simp only [List.map_cons]
        rw [ih r hrest]

theorem resolveOne_ok_mem (table : List ((String × String) × AssetKey))
    (ad : AssetsDefinition) :
    ∀ (ins : List (String × AssetKey)) (m : List (String × AssetKey)),
      resolveOne table ad ins = .ok m →
      ∀ iname ukey, (iname, ukey) ∈ ins →
        ∃ k, (iname, k) ∈ m ∧
          resolveInput table (fallbackGroup ad) (ad.keys.headD []) ukey = .ok k := by
  intro ins
  induction ins with
  | nil =>
    intro m _ iname ukey hmem
    simp at hmem
  | cons p rest ih =>
    intro m h iname ukey hmem
    have hstep : resolveOne table ad (p :: rest) =
        (match resolveInput table (fallbackGroup ad) (ad.keys.headD []) p.2 with
         | .error e => .error e
         | .ok k =>
           match resolveOne table ad rest with
           | .error e => .error e
           | .ok r => .ok ((p.1, k) :: r)) := by
      cases p
      rfl
    rw [hstep] at h
    cases hri : resolveInput table (fallbackGroup ad) (ad.keys.headD []) p.2 with
    | error e =>
      rw [hri] at h
      exact absurd h (by simp)
    | ok k =>
      rw [hri] at h
      cases hrest : resolveOne table ad rest with
      | error e =>
        rw [hrest] at h
        exact absurd h (by simp)
      | ok r =>
        rw [hrest] at h
        have h2 : (Except.ok ((p.1, k) :: r) :
            Except DefError (List (String × AssetKey))) = .ok m := h
        injection h2 with h3
        rcases List.mem_cons.1 hmem with hm | hm
        · refine ⟨k, ?_, ?_⟩
          · rw [← h3]
            have hif : iname = p.1 := congrArg Prod.fst hm
            rw [hif]
            exact List.mem_cons_self _ _
          · have hp2 : ukey = p.2 := congrArg Prod.snd hm
            rw [hp2]
            exact hri
        · rcases ih r hrest iname ukey hm with ⟨k', hk', hri'⟩
          refine ⟨k', ?_, hri'⟩
          rw [← h3]
          exact List.mem_cons_of_mem _ hk'

theorem resolveAll_ok_fst (table : List ((String × String) × AssetKey)) :
    ∀ (l : List AssetsDefinition) (res : List (AssetsDefinition × List (String × AssetKey))),
      resolveAll table l = .ok res → res.map Prod.fst = l := by
  intro l
  induction l with
  | nil =>
    intro res h
    have h2 : (Except.ok [] :
        Except DefError (List (AssetsDefinition × List (String × AssetKey)))) = .ok res := h
    injection h2 with h3
    rw [← h3]
    rfl
  | cons ad rest ih =>
    intro res h
    have hstep : resolveAll table (ad :: rest) =
        (match resolveOne table ad ad.keys_by_input_name with
         | .error e => .error e
         | .ok m =>
           match resolveAll table rest with
           | .error e => .error e
           | .ok r => .ok ((ad, m) :: r)) := rfl
    rw [hstep] at h
    cases h1 : resolveOne table ad ad.keys_by_input_name with
    | error e =>
      rw [h1] at h
      exact absurd h (by simp)
    | ok m =>
      rw [h1] at h
      cases h2 : resolveAll table rest with
      | error e =>
        rw [h2] at h
        exact absurd h (by simp)
      | ok r =>
        rw [h2] at h
        have h3 : (Except.ok ((ad, m) :: r) :
            Except DefError (List (AssetsDefinition × List (String × AssetKey)))) = .ok res := h
        injection h3 with h4
        rw [← h4]
        simp only [List.map_cons]
        rw [ih r h2]

theorem resolveAll_pair (table : List ((String × String) × AssetKey)) :
    ∀ (l : List AssetsDefinition) (res : List (AssetsDefinition × List (String × AssetKey))),
      resolveAll table l = .ok res →
      ∀ ad m, (ad, m) ∈ res → resolveOne table ad ad.keys_by_input_name = .ok m := by
  intro l
  induction l with
  | nil =>
    intro res h ad m hmem
    have h2 : (Except.ok [] :
        Except DefError (List (AssetsDefinition × List (String × AssetKey)))) = .ok res := h
    injection h2 with h3
    rw [← h3] at hmem
    simp at hmem
  | cons ad₀ rest ih =>
    intro res h ad m hmem
    have hstep : resolveAll table (ad₀ :: rest) =
        (match resolveOne table ad₀ ad₀.keys_by_input_name with
         | .error e => .error e
         | .ok m₀ =>
           match resolveAll table rest with
           | .error e => .error e
           | .ok r => .ok ((ad₀, m₀) :: r)) := rfl
    rw [hstep] at h
    cases h1 : resolveOne table ad₀ ad₀.keys_by_input_name with
    | error e =>
      rw [h1] at h
      exact absurd h (by simp)
    | ok m₀ =>
      rw [h1] at h
      cases h2 : resolveAll table rest with
      | error e =>
        rw [h2] at h
        exact absurd h (by simp)
      | ok r =>
        rw [h2] at h
        have h3 : (Except.ok ((ad₀, m₀) :: r) :
            Except DefError (List (AssetsDefinition × List (String × AssetKey)))) = .ok res := h
        injection h3 with h4
        rw [← h4] at hmem
        rcases List.mem_cons.1 hmem with hm | hm
        · have had : ad = ad₀ := congrArg Prod.fst hm
          have hmm : m = m₀ := congrArg Prod.snd hm
          rw [had, hmm]
          exact h1
        · exact ih r h2 ad m hm

theorem resolveAll_errs (table : List ((String × String) × AssetKey)) :
    ∀ (l : List AssetsDefinition), ∀ ad ∈ l, ∀ iname ukey,
      (iname, ukey) ∈ ad.keys_by_input_name →
      (∀ k, resolveInput table (fallbackGroup ad) (ad.keys.headD []) ukey ≠ .ok k) →
      ∃ e, resolveAll table l = .error e := by
  intro l ad hmem iname ukey hin hne
  cases hres : resolveAll table l with
  | error e => exact ⟨e, rfl⟩
  | ok res =>
    exfalso
    have hfst := resolveAll_ok_fst table l res hres
    have : ad ∈ res.map Prod.fst := by rw [hfst]; exact hmem
    rcases List.mem_map.1 this with ⟨p, hp, hpe⟩
    have hone : resolveOne table p.1 p.1.keys_by_input_name = .ok p.2 :=
      resolveAll_pair table l res hres p.1 p.2 hp
    rw [hpe] at hone
    rcases resolveOne_ok_mem table ad _ _ hone iname ukey hin with ⟨k, _, hk⟩
    exact hne k hk

theorem resolveOne_err_inv (table : List ((String × String) × AssetKey))
    (ad : AssetsDefinition) :
    ∀ (ins : List (String × AssetKey)) (e : DefError),
      resolveOne table ad ins = .error e →
      ∃ ukey iname, (iname, ukey) ∈ ins ∧
        e = .unresolvedInput ukey (ad.keys.headD []) ∧
        resolveInput table (fallbackGroup ad) (ad.keys.headD []) ukey = .error e := by
  intro ins
  induction ins with
  | nil =>
    intro e h
    exact absurd h (by simp [resolveOne])
  | cons p rest ih =>
    intro e h
    have hstep : resolveOne table ad (p :: rest) =
        (match resolveInput table (fallbackGroup ad) (ad.keys.headD []) p.2 with
         | .error e => .error e
         | .ok k =>
           match resolveOne table ad rest with
           | .error e => .error e
           | .ok r => .ok ((p.1, k) :: r)) := by
      cases p
      rfl
    rw [hstep] at h
    cases hri : resolveInput table (fallbackGroup ad) (ad.keys.headD []) p.2 with
    | error e₀ =>
      rw [hri] at h
      have he : e₀ = e := by
        have h2 : (Except.error e₀ :
            Except DefError (List (String × AssetKey))) = .error e := h
        injection h2
      subst he
      have hshape := (resolveInput_err_inv _ _ _ _ _ hri).2.2
      refine ⟨p.2, p.1, ?_, hshape, hri⟩
      have : (p.1, p.2) = p := rfl
      rw [this]
      exact List.mem_cons_self _ _
    | ok k =>
      rw [hri] at h
      cases hrest : resolveOne table ad rest with
      | error e₁ =>
        rw [hrest] at h
        have he : e₁ = e := by
          have h2 : (Except.error e₁ :
              Except DefError (List (String × AssetKey))) = .error e := h
          injection h2
        subst he
        rcases ih e₁ hrest with ⟨ukey, iname, hin, hee, hri'⟩
        exact ⟨ukey, iname, List.mem_cons_of_mem _ hin, hee, hri'⟩
      | ok r =>
        rw [hrest] at h
        exact absurd h (by simp)

theorem resolveAll_err_inv (table : List ((String × String) × AssetKey)) :
    ∀ (l : List AssetsDefinition) (e : DefError),
      resolveAll table l = .error e →
      ∃ ad ∈ l, ∃ ukey iname, (iname, ukey) ∈ ad.keys_by_input_name ∧
        e = .unresolvedInput ukey (ad.keys.headD []) ∧
        resolveInput table (fallbackGroup ad) (ad.keys.headD []) ukey = .error e := by
  intro l
  induction l with
  | nil =>
    intro e h
    exact absurd h (by simp [resolveAll])
  | cons ad₀ rest ih =>
    intro e h
    have hstep : resolveAll table (ad₀ :: rest) =
        (match resolveOne table ad₀ ad₀.keys_by_input_name with
         | .error e => .error e
         | .ok m₀ =>
           match resolveAll table rest with
           | .error e => .error e
           | .ok r => .ok ((ad₀, m₀) :: r)) := rfl
    rw [hstep] at h
    cases h1 : resolveOne table ad₀ ad₀.keys_by_input_name with
    | error e₀ =>
      rw [h1] at h
      have he : e₀ = e := by
        have h2 : (Except.error e₀ :
            Except DefError (List (AssetsDefinition × List (String × AssetKey)))) = .error e := h
        injection h2
      subst he
      have hone := resolveOne_err_inv table ad₀ ad₀.keys_by_input_name e₀ h1
      rcases hone with ⟨ukey, iname, hin, he, hri⟩
      exact ⟨ad₀, List.mem_cons_self _ _, ukey, iname, hin, he, hri⟩
    | ok m₀ =>
      rw [h1] at h
      cases h2 : resolveAll table rest with
      | error e₁ =>
        rw [h2] at h
        have he : e₁ = e := by
          have h3 : (Except.error e₁ :
              Except DefError (List (AssetsDefinition × List (String × AssetKey)))) = .error e := h
          injection h3
        subst he
        rcases ih e₁ h2 with ⟨ad', hmem', ukey, iname, hin, hee, hri⟩
        exact ⟨ad', List.mem_cons_of_mem _ hmem', ukey, iname, hin, hee, hri⟩
      | ok r =>
        rw [h2] at h
        exact absurd h (by simp)

theorem resolveInput_exact_eq (table : List ((String × String) × AssetKey))
    (group : Option String) (fk ukey : AssetKey)
    (hmem : ukey ∈ table.map Prod.snd) :
    resolveInput table group fk ukey = .ok ukey := by
  unfold resolveInput
  rw [if_pos hmem]

theorem resolveInput_fallback_eq (table : List ((String × String) × AssetKey))
    (group : Option String) (fk ukey : AssetKey) (g : String) (k : AssetKey)
    (hmem : ukey ∉ table.map Prod.snd) (hg : group = some g)
    (hl : dlookup (g, lastSeg ukey) table = some k) :
    resolveInput table group fk ukey = .ok k := by
  unfold resolveInput
  rw [if_neg hmem, hg]
  show (match dlookup (g, lastSeg ukey) table with
      | some k => (Except.ok k : Except DefError AssetKey)
      | none => Except.error (DefError.unresolvedInput ukey fk)) = Except.ok k
  rw [hl]

/-- C1 (amended): when no two produced or source keys share a
(group, final-segment) pair, the resolver maps every input whose declared
key is itself produced or supplied to that key; it maps every other input
through the (group, final path segment) table when the owning computation
has exactly one output key — the source tests the length of the per-key
group dict, not the number of distinct output groups; and when some input
matches neither way it fails with a DefinitionError naming an unresolved
input key and the owning computation's first output key. -/
theorem resolve_assets_def_deps_characterization (assets : List AssetsDefinition)
    (sources : List SourceAsset) (hns : NoShadowing assets sources) :
    (∀ res, resolve_assets_def_deps assets sources = .ok res →
      res.map Prod.fst = assets ∧
      ∀ ad m, (ad, m) ∈ res →
        m.map Prod.fst = ad.keys_by_input_name.map Prod.fst ∧
        ∀ iname ukey, (iname, ukey) ∈ ad.keys_by_input_name →
          (ukey ∈ allProducedKeys assets sources → (iname, ukey) ∈ m) ∧
          (ukey ∉ allProducedKeys assets sources →
            ∀ g k, fallbackGroup ad = some g →
              ((g, lastSeg ukey), k) ∈ tableEntries assets sources → (iname, k) ∈ m)) ∧
    (∀ ad ∈ assets, ∀ iname ukey, (iname, ukey) ∈ ad.keys_by_input_name →
      ukey ∉ allProducedKeys assets sources →
      (∀ g, fallbackGroup ad = some g →
        dlookup (g, lastSeg ukey) (buildGroupNameTable assets sources) = none) →
      ∃ ad' ∈ assets, ∃ ukey' iname',
        resolve_assets_def_deps assets sources =
          .error (.unresolvedInput ukey' (ad'.keys.headD [])) ∧
        (iname', ukey') ∈ ad'.keys_by_input_name ∧
        ukey' ∉ allProducedKeys assets sources ∧
        (∀ g, fallbackGroup ad' = some g →
          dlookup (g, lastSeg ukey') (buildGroupNameTable assets sources) = none)) := by
  constructor
  · intro res hok
    have hok' : resolveAll (buildGroupNameTable assets sources) assets = .ok res := hok
    refine ⟨resolveAll_ok_fst _ assets res hok', ?_⟩
    intro ad m hmem
    have hone := resolveAll_pair _ assets res hok' ad m hmem
    refine ⟨resolveOne_ok_names _ ad _ m hone, ?_⟩
    intro iname ukey hin
    constructor
    · intro hk
      rcases resolveOne_ok_mem _ ad _ m hone iname ukey hin with ⟨k, hkm, hri⟩
      have hri2 : resolveInput (buildGroupNameTable assets sources) (fallbackGroup ad)
          (ad.keys.headD []) ukey = .ok ukey :=
        resolveInput_exact_eq _ _ _ _ ((table_values_iff assets sources hns ukey).2 hk)
      rw [hri2] at hri
      injection hri with hkk
      rw [hkk]
      exact hkm
    · intro hk g k hfb htab
      rcases resolveOne_ok_mem _ ad _ m hone iname ukey hin with ⟨k', hk'm, hri⟩
      have hri2 : resolveInput (buildGroupNameTable assets sources) (fallbackGroup ad)
          (ad.keys.headD []) ukey = .ok k :=
        resolveInput_fallback_eq _ _ _ _ g k
          (fun hc => hk ((table_values_iff assets sources hns ukey).1 hc)) hfb
          ((table_lookup_iff assets sources hns (g, lastSeg ukey) k).2 htab)
      rw [hri2] at hri
      injection hri with hkk
      rw [hkk]
      exact hk'm
  · intro ad hmem iname ukey hin hk hnl
    have hri : resolveInput (buildGroupNameTable assets sources) (fallbackGroup ad)
        (ad.keys.headD []) ukey = .error (.unresolvedInput ukey (ad.keys.headD [])) :=
      resolveInput_err_of_unresolvable _ _ _ _
        (fun hc => hk ((table_values_iff assets sources hns ukey).1 hc)) hnl
    rcases resolveAll_errs (buildGroupNameTable assets sources) assets ad hmem iname ukey hin
        (by intro k hc; rw [hri] at hc; exact absurd hc (by simp)) with ⟨e, he⟩
    rcases resolveAll_err_inv _ assets e he with ⟨ad', hmem', ukey', iname', hin', hee, hri'⟩
    rcases resolveInput_err_inv _ _ _ _ _ hri' with ⟨hnv', hng', _⟩
    refine ⟨ad', hmem', ukey', iname', ?_, hin', ?_, ?_⟩
    · show resolveAll (buildGroupNameTable assets sources) assets = _
      rw [he, hee]
    · intro hc
      exact hnv' ((table_values_iff assets sources hns ukey').2 hc)
    · exact hng'

/-- C1 counterexample, two deviations.  First: definition exC has two
output keys that both carry the single group g, and its declared input x
matches the produced key p/x by (group, final segment); the claim says the
fallback applies because exC has exactly one distinct output group, but the
source applies it only when the per-key group dict has exactly one entry,
so compilation fails with a DefinitionError naming the input and exC's
first output key.  Second: the exact-match set is the post-overwrite lookup
table's values, not the produced keys, so exE's declared input a/x — a
produced key, which the claim says exact-matches — is shadowed by b/x on
(group g, segment x) and silently resolves to the wrong key b/x. -/
theorem resolver_group_counterexample :
    ((exC.group_names_by_key.map Prod.snd).dedup = ["g"] ∧
    dlookup ("g", "x") (buildGroupNameTable [exP, exC] []) = some ["p", "x"] ∧
    resolve_assets_def_deps [exP, exC] [] =
      .error (.unresolvedInput ["x"] ["b1"])) ∧
    ((["a", "x"] : AssetKey) ∈ allProducedKeys [exPa, exPb, exE] [] ∧
    ("in", (["a", "x"] : AssetKey)) ∈ exE.keys_by_input_name ∧
    resolve_assets_def_deps [exPa, exPb, exE] [] =
      .ok [(exPa, []), (exPb, []), (exE, [("in", ["b", "x"])])] ∧
    (["b", "x"] : AssetKey) ≠ ["a", "x"]) := by
  refine ⟨⟨by decide, by decide, by rfl⟩, by decide, by decide, by rfl, by decide⟩

/-- C1 witness: exD has one output key in group g and an input x that is
not produced directly but matches p/x by (group, final segment); the
resolver maps it to p/x. The error branch is exercised on the exC input
that the counterexample describes. -/
theorem resolve_assets_def_deps_characterization_witness :
    (("x", (["p", "x"] : AssetKey)) ∈ [("x", (["p", "x"] : AssetKey))]) ∧
    (∃ ad' ∈ [exP, exC], ∃ ukey' iname',
      resolve_assets_def_deps [exP, exC] [] =
        .error (.unresolvedInput ukey' (ad'.keys.headD [])) ∧
      (iname', ukey') ∈ ad'.keys_by_input_name ∧
      ukey' ∉ allProducedKeys [exP, exC] [] ∧
      (∀ g, fallbackGroup ad' = some g →
        dlookup (g, lastSeg ukey') (buildGroupNameTable [exP, exC] []) = none)) := by
  constructor
  · have h := (resolve_assets_def_deps_characterization [exP, exD] []
      (by unfold NoShadowing; decide)).1
      [(exP, []), (exD, [("x", ["p", "x"])])] (by rfl)
    exact ((h.2 exD [("x", ["p", "x"])] (by decide)).2 "x" ["x"] (by decide)).2
      (by decide) "g" ["p", "x"] (by rfl) (by decide)
  · exact (resolve_assets_def_deps_characterization [exP, exC] []
      (by unfold NoShadowing; decide)).2 exC (by decide) "x" ["x"] (by decide) (by decide)
      (by
        intro g hg
        have hcon : (none : Option String) = some g := hg
        exact absurd hcon (by simp))

theorem assignAliases_map_snd :
    ∀ (l : List AssetsDefinition) (c : List (String × Nat)),
      (assignAliases l c).map Prod.snd = l := by
  intro l
  induction l with
  | nil => intro c; rfl
  | cons ad rest ih =>
    intro c
    unfold assignAliases
    cases hd : dlookup ad.node_name c with
    | some n => simp [ih]
    | none => simp [ih]

theorem aliasOf_nodeKeyOf (al : String) (ad : AssetsDefinition) :
    aliasOf (nodeKeyOf al ad) = al := by
  unfold nodeKeyOf
  by_cases h : al ≠ ad.node_name
  · rw [if_pos h]
    rfl
  · rw [if_neg h]
    show ad.node_name = al
    exact (not_not.1 h).symm

theorem ndfStep_foldl_not_mem (outTable : List (AssetKey × (String × String))) :
    ∀ (rmap : List (String × AssetKey)) (acc : List (String × DependencyDefinition))
      (iname : String), iname ∉ rmap.map Prod.fst →
      dlookup iname (rmap.foldl (ndfStep outTable) acc) = dlookup iname acc := by
  intro rmap
  induction rmap with
  | nil => intro acc iname _; rfl
  | cons p rest ih =>
    intro acc iname hno
    rw [List.map_cons, List.mem_cons] at hno
    push_neg at hno
    rw [List.foldl_cons, ih _ iname hno.2]
    unfold ndfStep
    cases hd : dlookup p.2 outTable with
    | some q => exact dlookup_dinsert_ne _ acc (Ne.symm hno.1)
    | none => rfl

theorem ndfStep_foldl_mem (outTable : List (AssetKey × (String × String))) :
    ∀ (rmap : List (String × AssetKey)) (acc : List (String × DependencyDefinition))
      (iname : String) (rkey : AssetKey),
      (rmap.map Prod.fst).Nodup → (iname, rkey) ∈ rmap → iname ∉ acc.map Prod.fst →
      dlookup iname (rmap.foldl (ndfStep outTable) acc) =
        (dlookup rkey outTable).map (fun q => (⟨q.1, q.2⟩ : DependencyDefinition)) := by
  intro rmap
  induction rmap with
  | nil => intro acc iname rkey _ hmem _; simp at hmem
  | cons p rest ih =>
    intro acc iname rkey hnd hmem hacc
    rw [List.map_cons, List.nodup_cons] at hnd
    rw [List.foldl_cons]
    rcases List.mem_cons.1 hmem with h | h
    · have hp1 : p.1 = iname := by rw [← h]
      have hp2 : p.2 = rkey := by rw [← h]
      have hni : iname ∉ rest.map Prod.fst := by rw [← hp1]; exact hnd.1
      rw [ndfStep_foldl_not_mem outTable rest _ iname hni]
      unfold ndfStep
      rw [hp2]
      cases hd : dlookup rkey outTable with
      | some q =>
        rw [hp1, dlookup_dinsert_self]
        rfl
      | none =>
        exact dlookup_eq_none_iff.2 hacc
    · have hne : p.1 ≠ iname := by
        intro hc
        apply hnd.1
        rw [hc]
        exact List.mem_map.2 ⟨(iname, rkey), h, rfl⟩
      unfold ndfStep
      cases hd : dlookup p.2 outTable with
      | some q =>
        apply ih _ iname rkey hnd.2 h
        intro hc
        rcases mem_fst_dinsert.1 hc with hc | hc
        · exact hne hc.symm
        · exact hacc hc
      | none => exact ih _ iname rkey hnd.2 h hacc

theorem nodeDepsFor_lookup (outTable : List (AssetKey × (String × String)))
    (rmap : List (String × AssetKey)) (iname : String) (rkey : AssetKey)
    (hnd : (rmap.map Prod.fst).Nodup) (hmem : (iname, rkey) ∈ rmap) :
    dlookup iname (nodeDepsFor outTable rmap) =
      (dlookup rkey outTable).map (fun q => (⟨q.1, q.2⟩ : DependencyDefinition)) :=
  ndfStep_foldl_mem outTable rmap [] iname rkey hnd hmem (by simp)

theorem outputTable_keys (aliased : List (String × AssetsDefinition)) (rkey : AssetKey) :
    rkey ∈ (outputTable aliased).map Prod.fst ↔
      ∃ p, p ∈ aliased ∧ ∃ oname, (oname, rkey) ∈ p.2.keys_by_output_name := by
  unfold outputTable
  rw [mem_fst_dinsertAll]
  simp only [List.map_nil, List.not_mem_nil, false_or]
  constructor
  · intro h
    rcases List.mem_map.1 h with ⟨x, hx, hx1⟩
    rcases List.mem_flatten.1 hx with ⟨bl, hbl, hxbl⟩
    rcases List.mem_map.1 hbl with ⟨p, hp, hpbl⟩
    rw [← hpbl] at hxbl
    rcases List.mem_map.1 hxbl with ⟨q, hq, hqx⟩
    refine ⟨p, hp, q.1, ?_⟩
    have hq2 : q.2 = rkey := by rw [← hx1, ← hqx]
    rw [← hq2]
    exact hq
  · rintro ⟨p, hp, oname, hq⟩
    apply List.mem_map.2
    refine ⟨(rkey, (p.1, oname)), ?_, rfl⟩
    apply List.mem_flatten.2
    refine ⟨_, List.mem_map.2 ⟨p, hp, rfl⟩, ?_⟩
    exact List.mem_map.2 ⟨(oname, rkey), hq, rfl⟩

theorem outputTable_lookup_some (aliased : List (String × AssetsDefinition))
    (rkey : AssetKey) (q : String × String)
    (h : dlookup rkey (outputTable aliased) = some q) :
    ∃ ad, (q.1, ad) ∈ aliased ∧ (q.2, rkey) ∈ ad.keys_by_output_name := by
  have hmem := dlookup_mem h
  rcases mem_dinsertAll hmem with hi | hi
  · simp at hi
  · rcases List.mem_flatten.1 hi with ⟨bl, hbl, hxbl⟩
    rcases List.mem_map.1 hbl with ⟨p, hp, hpbl⟩
    rw [← hpbl] at hxbl
    rcases List.mem_map.1 hxbl with ⟨w, hw, hwx⟩
    have h1 : w.2 = rkey := congrArg Prod.fst hwx
    have h2 : (p.1, w.1) = q := congrArg Prod.snd hwx
    refine ⟨p.2, ?_, ?_⟩
    · have hq1 : q.1 = p.1 := by rw [← h2]
      rw [hq1]
      exact hp
    · have hq2 : q.2 = w.1 := by rw [← h2]
      rw [hq2, ← h1]
      exact hw

theorem handleEntriesFor_fst (al : String) (rmap : List (String × AssetKey)) :
    (handleEntriesFor al rmap).map Prod.fst = (rmap.map Prod.fst).map (fun s => (al, s)) := by
  unfold handleEntriesFor
  rw [List.map_map, List.map_map]
  rfl

theorem nodekeys_nodup : ∀ (l : List (String × AssetsDefinition)),
    (l.map Prod.fst).Nodup →
    (l.map (fun p : String × AssetsDefinition => nodeKeyOf p.1 p.2)).Nodup := by
  intro l
  induction l with
  | nil => intro _; simp
  | cons p rest ih =>
    intro h
    rw [List.map_cons, List.nodup_cons] at h ⊢
    refine ⟨?_, ih h.2⟩
    intro hc
    rcases List.mem_map.1 hc with ⟨q, hq, hqe⟩
    apply h.1
    have hq1 : q.1 = p.1 := by
      rw [← aliasOf_nodeKeyOf q.1 q.2, ← aliasOf_nodeKeyOf p.1 p.2, hqe]
    rw [← hq1]
    exact List.mem_map.2 ⟨q, hq, rfl⟩

/-- C7: for every unit handle and every resolved input of that unit, the
input-handle map records the resolved key; the dependency dict maps the
unit's node key to its per-input dependency dict, whose entry for the
input is exactly the output-table lookup of the resolved key — present,
and aimed at the producing (unit, output), exactly when some unit in the
compiled set produces the key, and absent (no in-graph edge) when none
does. -/
theorem build_node_deps_edges (assets : List AssetsDefinition)
    (sources : List SourceAsset)
    (deps : List (NodeKey × List (String × DependencyDefinition)))
    (handles : List (String × AssetsDefinition))
    (hmap : List ((String × String) × AssetKey))
    (resolved : List (AssetsDefinition × List (String × AssetKey)))
    (hok : build_node_deps assets sources = .ok (deps, handles, hmap))
    (hres : resolve_assets_def_deps (sortDefs assets) sources = .ok resolved)
    (hal : ((assignAliases (sortDefs assets) []).map Prod.fst).Nodup)
    (hin : ∀ ad ∈ assets, (ad.keys_by_input_name.map Prod.fst).Nodup) :
    handles = assignAliases (sortDefs assets) [] ∧
    ∀ al ad, (al, ad) ∈ handles →
      ∀ iname rkey, (iname, rkey) ∈ (dlookup ad resolved).getD [] →
        dlookup (al, iname) hmap = some rkey ∧
        dlookup (nodeKeyOf al ad) deps =
          some (nodeDepsFor (outputTable handles) ((dlookup ad resolved).getD [])) ∧
        dlookup iname (nodeDepsFor (outputTable handles) ((dlookup ad resolved).getD [])) =
          (dlookup rkey (outputTable handles)).map
            (fun q => (⟨q.1, q.2⟩ : DependencyDefinition)) ∧
        ((dlookup rkey (outputTable handles)).isSome = true ↔
          ∃ al' ad', (al', ad') ∈ handles ∧
            ∃ oname, (oname, rkey) ∈ ad'.keys_by_output_name) ∧
        (∀ q, dlookup rkey (outputTable handles) = some q →
          ∃ ad', (q.1, ad') ∈ handles ∧ (q.2, rkey) ∈ ad'.keys_by_output_name) := by
  have hres' : resolveAll (buildGroupNameTable (sortDefs assets) sources) (sortDefs assets)
      = .ok resolved := hres
  have hhd : handleDict (assignAliases (sortDefs assets) []) =
      assignAliases (sortDefs assets) [] := dinsertAll_nil_nodup _ hal
  have hbody : build_node_deps assets sources =
      .ok (dinsertAll []
            ((handleDict (assignAliases (sortDefs assets) [])).map (fun p =>
              (nodeKeyOf p.1 p.2,
                nodeDepsFor (outputTable (assignAliases (sortDefs assets) []))
                  ((dlookup p.2 resolved).getD [])))),
          handleDict (assignAliases (sortDefs assets) []),
          dinsertAll []
            (((handleDict (assignAliases (sortDefs assets) [])).map (fun p =>
              handleEntriesFor p.1 ((dlookup p.2 resolved).getD []))).flatten)) := by
    unfold build_node_deps
    rw [hres]
  rw [hhd] at hbody
  have htrip := Except.ok.inj (hok.symm.trans hbody)
  have hhandles : handles = assignAliases (sortDefs assets) [] :=
    congrArg (fun t => t.2.1) htrip
  have hdeps : deps = dinsertAll []
      ((assignAliases (sortDefs assets) []).map (fun p =>
        (nodeKeyOf p.1 p.2,
          nodeDepsFor (outputTable (assignAliases (sortDefs assets) []))
            ((dlookup p.2 resolved).getD [])))) :=
    congrArg (fun t => t.1) htrip
  have hm : hmap = dinsertAll []
      (((assignAliases (sortDefs assets) []).map (fun p =>
        handleEntriesFor p.1 ((dlookup p.2 resolved).getD []))).flatten) :=
    congrArg (fun t => t.2.2) htrip
  have hrfst : resolved.map Prod.fst = sortDefs assets := resolveAll_ok_fst _ _ _ hres'
  have hblock : ∀ p : String × AssetsDefinition,
      p ∈ assignAliases (sortDefs assets) [] →
      ∃ m, dlookup p.2 resolved = some m ∧ (m.map Prod.fst).Nodup := by
    intro p hp
    have hsnd : p.2 ∈ sortDefs assets := by
      rw [← assignAliases_map_snd (sortDefs assets) []]
      exact List.mem_map.2 ⟨p, hp, rfl⟩
    have hinr : p.2 ∈ resolved.map Prod.fst := by rw [hrfst]; exact hsnd
    cases hd : dlookup p.2 resolved with
    | none => exact absurd hinr (dlookup_eq_none_iff.1 hd)
    | some m =>
      refine ⟨m, rfl, ?_⟩
      have hone := resolveAll_pair _ _ _ hres' p.2 m (dlookup_mem hd)
      have hnames := resolveOne_ok_names _ p.2 _ m hone
      rw [hnames]
      exact hin p.2 ((sortDefs_perm assets).mem_iff.1 hsnd)
  have hFfst : (((((assignAliases (sortDefs assets) []).map (fun p =>
      handleEntriesFor p.1 ((dlookup p.2 resolved).getD []))).flatten).map Prod.fst)).Nodup := by
    have h1 : ((((assignAliases (sortDefs assets) []).map (fun p =>
        handleEntriesFor p.1 ((dlookup p.2 resolved).getD []))).flatten).map Prod.fst) =
        ((assignAliases (sortDefs assets) []).map (fun p : String × AssetsDefinition =>
          (handleEntriesFor p.1 ((dlookup p.2 resolved).getD [])).map Prod.fst)).flatten := by
      rw [List.map_flatten, List.map_map]
      rfl
    rw [h1]
    apply List.nodup_flatten.2
    constructor
    · intro l hl
      rcases List.mem_map.1 hl with ⟨p, hp, hpl⟩
      rcases hblock p hp with ⟨m, hdm, hmn⟩
      rw [← hpl, handleEntriesFor_fst, hdm]
      exact List.Nodup.map (fun a b hab => congrArg Prod.snd hab) hmn
    · apply List.pairwise_map.2
      have hpw : (assignAliases (sortDefs assets) []).Pairwise (fun p q => p.1 ≠ q.1) :=
        List.pairwise_map.1 hal
      apply List.Pairwise.imp ?_ hpw
      intro p q hne
      intro x hxp hxq
      have hxp' : x ∈ (handleEntriesFor p.1 ((dlookup p.2 resolved).getD [])).map Prod.fst :=
        hxp
      have hxq' : x ∈ (handleEntriesFor q.1 ((dlookup q.2 resolved).getD [])).map Prod.fst :=
        hxq
      rw [handleEntriesFor_fst] at hxp' hxq'
      rcases List.mem_map.1 hxp' with ⟨s, _, hs⟩
      rcases List.mem_map.1 hxq' with ⟨t, _, ht⟩
      apply hne
      have h1 : x.1 = p.1 := by rw [← hs]
      have h2 : x.1 = q.1 := by rw [← ht]
      rw [← h1, ← h2]
  have hDfst : ((((assignAliases (sortDefs assets) []).map (fun p =>
      (nodeKeyOf p.1 p.2,
        nodeDepsFor (outputTable (assignAliases (sortDefs assets) []))
          ((dlookup p.2 resolved).getD [])))).map Prod.fst)).Nodup := by
    have h1 : (((assignAliases (sortDefs assets) []).map (fun p =>
        (nodeKeyOf p.1 p.2,
          nodeDepsFor (outputTable (assignAliases (sortDefs assets) []))
            ((dlookup p.2 resolved).getD [])))).map Prod.fst) =
        (assignAliases (sortDefs assets) []).map
          (fun p : String × AssetsDefinition => nodeKeyOf p.1 p.2) := by
      rw [List.map_map]
      rfl
    rw [h1]
    exact nodekeys_nodup _ hal
  refine ⟨hhandles, ?_⟩
  intro al ad hmemH iname rkey hmemR
  rw [hhandles] at hmemH
  rcases hblock (al, ad) hmemH with ⟨m, hdm0, hmn⟩
  have hdm : dlookup ad resolved = some m := hdm0
  refine ⟨?_, ?_, ?_, ?_, ?_⟩
  · rw [hm, dinsertAll_nil_nodup _ hFfst]
    apply dlookup_of_mem_nodup hFfst
    apply List.mem_flatten.2
    refine ⟨_, List.mem_map.2 ⟨(al, ad), hmemH, rfl⟩, ?_⟩
    exact List.mem_map.2 ⟨(iname, rkey), hmemR, rfl⟩
  · rw [hdeps, dinsertAll_nil_nodup _ hDfst, hhandles]
    apply dlookup_of_mem_nodup hDfst
    exact List.mem_map.2 ⟨(al, ad), hmemH, rfl⟩
  · rw [hhandles]
    apply nodeDepsFor_lookup
    · rw [hdm]
      exact hmn
    · exact hmemR
  · rw [hhandles]
    constructor
    · intro hs
      rcases Option.isSome_iff_exists.1 hs with ⟨q, hq⟩
      have hk : rkey ∈ (outputTable (assignAliases (sortDefs assets) [])).map Prod.fst :=
        List.mem_map.2 ⟨(rkey, q), dlookup_mem hq, rfl⟩
      rcases (outputTable_keys _ rkey).1 hk with ⟨p, hp, oname, hq2⟩
      exact ⟨p.1, p.2, hp, oname, hq2⟩
    · rintro ⟨al', ad', hp, oname, hq⟩
      have hk : rkey ∈ (outputTable (assignAliases (sortDefs assets) [])).map Prod.fst :=
        (outputTable_keys _ rkey).2 ⟨(al', ad'), hp, oname, hq⟩
      apply Option.isSome_iff_ne_none.2
      intro hc
      exact (dlookup_eq_none_iff.1 hc) hk
  · rw [hhandles]
    intro q hq
    exact outputTable_lookup_some _ rkey q hq

/-- C7 witness: in the two-definition job of exP and exD, the resolved
input x of exD is recorded in the input-handle map, produces a dependency
edge to the producing node P at output x, and the produced-key table
confirms the producer. -/
theorem build_node_deps_edges_witness :
    dlookup (("D" : String), ("x" : String))
        [((("D" : String), ("x" : String)), (["p", "x"] : AssetKey))] =
      some ["p", "x"] ∧
    dlookup (nodeKeyOf "D" exD)
        [(NodeKey.str "D", [(("x" : String), (⟨"P", "x"⟩ : DependencyDefinition))]),
         (NodeKey.str "P", ([] : List (String × DependencyDefinition)))] =
      some (nodeDepsFor (outputTable [("D", exD), ("P", exP)])
        ((dlookup exD [(exD, [(("x" : String), (["p", "x"] : AssetKey))]), (exP, [])]).getD [])) ∧
    dlookup "x" (nodeDepsFor (outputTable [("D", exD), ("P", exP)])
        ((dlookup exD [(exD, [(("x" : String), (["p", "x"] : AssetKey))]), (exP, [])]).getD [])) =
      (dlookup (["p", "x"] : AssetKey) (outputTable [("D", exD), ("P", exP)])).map
        (fun q => (⟨q.1, q.2⟩ : DependencyDefinition)) ∧
    ((dlookup (["p", "x"] : AssetKey) (outputTable [("D", exD), ("P", exP)])).isSome = true ↔
      ∃ al' ad', (al', ad') ∈ [("D", exD), ("P", exP)] ∧
        ∃ oname, (oname, (["p", "x"] : AssetKey)) ∈ ad'.keys_by_output_name) ∧
    (∀ q, dlookup (["p", "x"] : AssetKey) (outputTable [("D", exD), ("P", exP)]) = some q →
      ∃ ad', (q.1, ad') ∈ [("D", exD), ("P", exP)] ∧
        (q.2, (["p", "x"] : AssetKey)) ∈ ad'.keys_by_output_name) :=
  (build_node_deps_edges [exP, exD] []
      [(NodeKey.str "D", [("x", ⟨"P", "x"⟩)]), (NodeKey.str "P", [])]
      [("D", exD), ("P", exP)]
      [(("D", "x"), ["p", "x"])]
      [(exD, [("x", ["p", "x"])]), (exP, [])]
      (by rfl) (by rfl) (by decide) (by decide)).2
    "D" exD (by decide) "x" ["p", "x"] (by decide)

/-- C3: on the cross-cycle pair exA (outputs a1, a2) and exB (outputs b1,
b2) with edges a1 to b1 and b2 to a2, the cycle resolver splits both
definitions into one subset per color, the four resulting units carry
exactly the original output keys with none lost or duplicated, and the
rebuilt unit-level graph is acyclic: it admits a strict topological order
and the cycle detector accepts it, while the original two-unit graph is
rejected as cyclic. -/
theorem cycle_resolver_cross_cycle :
    ∃ ret deps, _attempt_resolve_cycles [exA, exB] = some ret ∧
      ret = [exA.subset_for [["a1"]], exA.subset_for [["a2"]],
             exB.subset_for [["b1"]], exB.subset_for [["b2"]]] ∧
      (∃ handles hm, build_node_deps ret [] = .ok (deps, handles, hm)) ∧
      ((ret.map AssetsDefinition.keys).flatten).Perm
        (([exA, exB].map AssetsDefinition.keys).flatten) ∧
      ((ret.map AssetsDefinition.keys).flatten).Nodup ∧
      2 < ret.length ∧
      IsStrictTopoOrder (unitAdjOf deps) ["A", "B", "B_2", "A_2"] ∧
      _has_cycles deps = false ∧
      (∃ deps0 handles0 hm0, build_node_deps [exA, exB] [] = .ok (deps0, handles0, hm0) ∧
        _has_cycles deps0 = true) := by
  refine ⟨[exA.subset_for [["a1"]], exA.subset_for [["a2"]],
           exB.subset_for [["b1"]], exB.subset_for [["b2"]]],
    [(NodeKey.str "A", []),
     (NodeKey.invocation "A" "A_2", [("b2", ⟨"B_2", "b2"⟩)]),
     (NodeKey.str "B", [("a1", ⟨"A", "a1"⟩)]),
     (NodeKey.invocation "B" "B_2", [])],
    by rfl, rfl, ⟨_, _, by rfl⟩, by decide, by decide, by decide, ?_, by rfl, ⟨_, _, _, by rfl, by rfl⟩⟩
  unfold IsStrictTopoOrder
  decide
